import Mathlib

/-!
Verification of the grid shortest-path finder (`dijkstra` in
`python_example_364702.py`).

The Python function is shallowly embedded as follows.

* A cell is an `Int × Int` pair, matching Python integer tuples (the
  neighbour offsets `row - 1` etc. can be negative before the bounds check).
* The grid is a `List (List Int)`; `graph[r][c]` becomes the `Option`-valued
  `gridGet` (`none` models an `IndexError` on a ragged row).
* The `distances` dict maps every in-bounds cell to `inf` and `start` to `0`;
  every lookup the code performs is at one of those keys, so it is modelled
  by the total function `fun c => if c = start then 0 else ⊤` into `ℕ∞`.
* The `previous_nodes` dict is a partial map `Cell → Option Cell`;
  `x in previous_nodes` is `prev x ≠ none`.
* `heapq` orders `(distance, (row, col))` tuples lexicographically, a total
  order, so `heappop` returns the minimum value of the multiset of entries
  and removes one occurrence of it.  The queue is modelled as a list with
  `popMin`; `heappush` adds an entry.  Independence of the result from the
  list arrangement is proved (`dijkstraLoop_perm`).
* The `while` loops are modelled with fuel; the chosen fuel is proved
  sufficient, and exhausting it yields the distinguished `PyRes.fuelOut`
  which is proved unreachable for well-formed inputs.
* A raised exception (empty grid, ragged row access) is `PyRes.exn`.
-/

set_option maxRecDepth 8000

namespace GridPath

/-- A grid cell, a Python `(row, col)` tuple of ints. -/
abbrev Cell := Int × Int

/-- The game map: `0` is traversable, anything else is an obstacle. -/
abbrev Grid := List (List Int)

/-- A priority-queue entry `(distance, (row, col))`. -/
abbrev Entry := ℕ × Cell

/-- Models the Python expression `graph[r][c]` for nonnegative indices:
`none` is an `IndexError` (row `r` missing or shorter than `c + 1`). -/
def gridGet (g : Grid) (r c : Int) : Option Int :=
  (g[r.toNat]?).bind fun row => row[c.toNat]?

/-- Column count read from the first row, Python `len(graph[0])`. -/
def colsOf (g : Grid) : ℕ := g.headI.length

/-- The bounds test `0 <= r < rows and 0 <= c < cols` from the source. -/
def inB (rows cols : ℕ) (x : Cell) : Prop :=
  0 ≤ x.1 ∧ x.1 < (rows : Int) ∧ 0 ≤ x.2 ∧ x.2 < (cols : Int)

instance (rows cols : ℕ) (x : Cell) : Decidable (inB rows cols x) := by
  unfold inB; infer_instance

/-- An in-bounds traversable cell (grid value `0`). -/
def OkCell (g : Grid) (rows cols : ℕ) (x : Cell) : Prop :=
  inB rows cols x ∧ gridGet g x.1 x.2 = some 0

instance (g : Grid) (rows cols : ℕ) (x : Cell) : Decidable (OkCell g rows cols x) := by
  unfold OkCell; infer_instance

/-- Traversable cell of `g` with the dimensions the source computes. -/
def Trav (g : Grid) (x : Cell) : Prop := OkCell g g.length (colsOf g) x

instance (g : Grid) (x : Cell) : Decidable (Trav g x) := by
  unfold Trav; infer_instance

/-- The grid is rectangular: every row has the length of the first one. -/
def Rect (g : Grid) : Prop := ∀ row ∈ g, row.length = colsOf g

instance (g : Grid) : Decidable (Rect g) := List.decidableBAll _ g

/-- The four neighbour candidates, in the order the source lists them. -/
def neighborsOf (x : Cell) : List Cell :=
  [(x.1 - 1, x.2), (x.1 + 1, x.2), (x.1, x.2 - 1), (x.1, x.2 + 1)]

/-- Four-directional adjacency: `y` is one of the neighbour candidates of `x`. -/
def Adj (x y : Cell) : Prop := y ∈ neighborsOf x

instance (x y : Cell) : Decidable (Adj x y) := by
  unfold Adj; infer_instance

/-- Lexicographic comparison of queue entries, the order Python uses on
`(distance, (row, col))` tuples. -/
def eLe (a b : Entry) : Bool :=
  decide (a.1 < b.1 ∨ (a.1 = b.1 ∧
    (a.2.1 < b.2.1 ∨ (a.2.1 = b.2.1 ∧ a.2.2 ≤ b.2.2))))

/-- The minimum entry of `e :: l` under `eLe`. -/
def findMinE (e : Entry) (l : List Entry) : Entry :=
  l.foldl (fun m x => if eLe x m then x else m) e

/-- Models `heapq.heappop`: return the minimum entry value and the remaining
multiset of entries. -/
def popMin (l : List Entry) : Option (Entry × List Entry) :=
  match l with
  | [] => none
  | e :: es =>
    let m := findMinE e es
    some (m, (e :: es).erase m)

/-- The mutable state of one search: the `distances` dict (total function,
see the header comment), the `previous_nodes` dict, and the priority queue. -/
structure DState where
  dist : Cell → ℕ∞
  prev : Cell → Option Cell
  queue : List Entry

/-- Result of a call: a returned path, the `None` no-path return, a raised
exception, or the fuel artifact of the embedding. -/
inductive PyRes where
  | path (p : List Cell)
  | noPath
  | exn
  | fuelOut
deriving DecidableEq

/-- Outcome of one iteration of the main `while` loop. -/
inductive StepOut where
  | next (s : DState)
  | ret (r : PyRes)

/-- Path reconstruction: `while current_node in previous_nodes: append;
follow`, then append `start` and reverse.  Fuel-based; `none` is fuel
exhaustion (never reached from an actual search, as proved below). -/
def reconstructLoop (start : Cell) (prev : Cell → Option Cell) :
    ℕ → Cell → List Cell → Option (List Cell)
  | 0, _, _ => none
  | fuel + 1, cur, acc =>
    match prev cur with
    | some p => reconstructLoop start prev fuel p (acc ++ [cur])
    | none => some ((acc ++ [start]).reverse)

/-- Process one neighbour candidate: bounds check, obstacle check, and the
relaxation `if new_distance < distances[neighbor]`.  `nd` is
`current_distance + 1`.  `none` models the `IndexError` of a ragged row. -/
def relaxCell (g : Grid) (rows cols : ℕ) (nd : ℕ) (cur : Cell)
    (s : DState) (nb : Cell) : Option DState :=
  if inB rows cols nb then
    match gridGet g nb.1 nb.2 with
    | none => none
    | some v =>
      if v = 0 then
        if (nd : ℕ∞) < s.dist nb then
          some { dist := fun x => if x = nb then (nd : ℕ∞) else s.dist x,
                 prev := fun x => if x = nb then some cur else s.prev x,
                 queue := s.queue ++ [(nd, nb)] }
        else some s
      else some s
  else some s

/-- The `for neighbor in neighbors` loop. -/
def relaxList (g : Grid) (rows cols : ℕ) (nd : ℕ) (cur : Cell) :
    DState → List Cell → Option DState
  | s, [] => some s
  | s, nb :: rest =>
    match relaxCell g rows cols nd cur s nb with
    | none => none
    | some s1 => relaxList g rows cols nd cur s1 rest

/-- One iteration of the main `while priority_queue` loop. -/
def dijkstraStep (g : Grid) (rows cols : ℕ) (start goal : Cell)
    (s : DState) : StepOut :=
  match popMin s.queue with
  | none => .ret .noPath
  | some ((d, cur), q1) =>
    if (d : ℕ∞) > s.dist cur then .next { s with queue := q1 }
    else if cur = goal then
      match reconstructLoop start s.prev (d + 1) cur [] with
      | some p => .ret (.path p)
      | none => .ret .fuelOut
    else
      match relaxList g rows cols (d + 1) cur { s with queue := q1 }
          (neighborsOf cur) with
      | some s1 => .next s1
      | none => .ret .exn

/-- The fuel-indexed main loop. -/
def dijkstraLoop (g : Grid) (rows cols : ℕ) (start goal : Cell) :
    ℕ → DState → PyRes
  | 0, _ => .fuelOut
  | fuel + 1, s =>
    match dijkstraStep g rows cols start goal s with
    | .ret r => r
    | .next s1 => dijkstraLoop g rows cols start goal fuel s1

/-- Initial state: `distances` all infinite except `start ↦ 0`,
`previous_nodes` empty, queue `[(0, start)]`. -/
def initState (start : Cell) : DState :=
  { dist := fun c => if c = start then 0 else ⊤,
    prev := fun _ => none,
    queue := [(0, start)] }

/-- The embedded `dijkstra(graph, start, end)`.  An empty grid raises at
`len(graph[0])`.  The fuel `rows * cols + 2` is proved sufficient below. -/
def dijkstra (g : Grid) (start goal : Cell) : PyRes :=
  match g with
  | [] => .exn
  | g0 :: _ =>
    dijkstraLoop g g.length g0.length start goal
      (g.length * g0.length + 2) (initState start)

/-- A walk of `n` hops from `start` as the search explores it: every cell
after the first is in bounds and traversable (the start cell itself is
never checked by the source). -/
inductive NWalk (g : Grid) (rows cols : ℕ) (start : Cell) : Cell → ℕ → Prop where
  | nil : NWalk g rows cols start start 0
  | cons {c : Cell} {n : ℕ} {c2 : Cell} :
      NWalk g rows cols start c n → Adj c c2 → OkCell g rows cols c2 →
      NWalk g rows cols start c2 (n + 1)

/-- A path as the specification describes it: a cell sequence from `s` to
`t` inclusive, consecutive cells 4-adjacent, every cell traversable. -/
def PathOk (g : Grid) (s t : Cell) (p : List Cell) : Prop :=
  p.head? = some s ∧ p.getLast? = some t ∧ List.Chain' Adj p ∧ ∀ x ∈ p, Trav g x

/-- Manhattan distance between two cells. -/
def manhattan (a b : Cell) : ℕ := (a.1 - b.1).natAbs + (a.2 - b.2).natAbs

/-- Blocking one cell of a grid (used to state obstacle monotonicity). -/
def blockCell (g : Grid) (ch : Cell) : Grid :=
  g.mapIdx fun r row =>
    if (r : Int) = ch.1 then
      row.mapIdx (fun c v => if (c : Int) = ch.2 then 1 else v)
    else row

/-- States the main loop can reach from the initial state of a search. -/
inductive Reaches (g : Grid) (rows cols : ℕ) (start goal : Cell) : DState → Prop where
  | init : Reaches g rows cols start goal (initState start)
  | step {s s1 : DState} : Reaches g rows cols start goal s →
      dijkstraStep g rows cols start goal s = .next s1 →
      Reaches g rows cols start goal s1

theorem eLe_refl (a : Entry) : eLe a a = true := by
  simp [eLe]

theorem eLe_total (a b : Entry) : eLe a b = true ∨ eLe b a = true := by
  simp only [eLe, decide_eq_true_eq]
  omega

theorem eLe_trans {a b c : Entry} (h1 : eLe a b = true) (h2 : eLe b c = true) :
    eLe a c = true := by
  simp only [eLe, decide_eq_true_eq] at h1 h2 ⊢
  omega

theorem eLe_antisymm {a b : Entry} (h1 : eLe a b = true) (h2 : eLe b a = true) :
    a = b := by
  simp only [eLe, decide_eq_true_eq] at h1 h2
  have ha : a = (a.1, (a.2.1, a.2.2)) := rfl
  have hb : b = (b.1, (b.2.1, b.2.2)) := rfl
  rw [ha, hb]
  have : a.1 = b.1 ∧ a.2.1 = b.2.1 ∧ a.2.2 = b.2.2 := by omega
  rw [this.1, this.2.1, this.2.2]

theorem eLe_first {a b : Entry} (h : eLe a b = true) : a.1 ≤ b.1 := by
  simp only [eLe, decide_eq_true_eq] at h
  omega

theorem findMinE_mem (e : Entry) (l : List Entry) : findMinE e l ∈ e :: l := by
  induction l generalizing e with
  | nil => simp [findMinE]
  | cons x xs ih =>
    have hstep : findMinE e (x :: xs) = findMinE (if eLe x e then x else e) xs := rfl
    rw [hstep]
    have := ih (if eLe x e then x else e)
    rcases List.mem_cons.mp this with h | h
    · rw [h]
      by_cases hc : eLe x e
      · simp [hc]
      · simp [hc]
    · simp [h]

theorem findMinE_le (e : Entry) (l : List Entry) :
    ∀ x ∈ e :: l, eLe (findMinE e l) x = true := by
  induction l generalizing e with
  | nil =>
    intro x hx
    simp only [List.mem_singleton] at hx
    rw [hx]
    exact eLe_refl _
  | cons y ys ih =>
    intro x hx
    have hstep : findMinE e (y :: ys) = findMinE (if eLe y e then y else e) ys := rfl
    rw [hstep]
    have hhead : eLe (findMinE (if eLe y e then y else e) ys) (if eLe y e then y else e) = true :=
      ih _ _ (List.mem_cons_self _ _)
    have hze : eLe (if eLe y e then y else e) e = true := by
      by_cases hc : eLe y e = true
      · rw [if_pos hc]; exact hc
      · rw [if_neg hc]; exact eLe_refl e
    have hzy : eLe (if eLe y e then y else e) y = true := by
      by_cases hc : eLe y e = true
      · rw [if_pos hc]; exact eLe_refl y
      · rw [if_neg hc]
        rcases eLe_total y e with h | h
        · exact absurd h hc
        · exact h
    rcases List.mem_cons.mp hx with h | hx2
    · rw [h]; exact eLe_trans hhead hze
    rcases List.mem_cons.mp hx2 with h | h
    · rw [h]; exact eLe_trans hhead hzy
    · exact ih _ _ (List.mem_cons_of_mem _ h)

theorem popMin_none {l : List Entry} : popMin l = none ↔ l = [] := by
  cases l <;> simp [popMin]

theorem popMin_spec {l : List Entry} {m : Entry} {r : List Entry}
    (h : popMin l = some (m, r)) :
    m ∈ l ∧ (∀ x ∈ l, eLe m x = true) ∧ r = l.erase m := by
  match l with
  | [] => simp [popMin] at h
  | e :: es =>
    simp only [popMin, Option.some.injEq, Prod.mk.injEq] at h
    obtain ⟨hm, hr⟩ := h
    subst hm
    exact ⟨findMinE_mem e es, findMinE_le e es, hr.symm⟩

theorem popMin_unique {l : List Entry} {m : Entry}
    (hm : m ∈ l) (hle : ∀ x ∈ l, eLe m x = true) :
    popMin l = some (m, l.erase m) := by
  match l with
  | [] => simp at hm
  | e :: es =>
    have h1 : findMinE e es ∈ e :: es := findMinE_mem e es
    have h2 : ∀ x ∈ e :: es, eLe (findMinE e es) x = true := findMinE_le e es
    have : findMinE e es = m := eLe_antisymm (h2 m hm) (hle _ h1)
    simp [popMin, this]

theorem perm_erase_entry (m : Entry) {l l2 : List Entry} (hp : l.Perm l2) :
    (l.erase m).Perm (l2.erase m) := by
  induction hp with
  | nil => rfl
  | cons x p ih =>
    by_cases hx : x = m
    · subst hx
      rw [List.erase_cons_head, List.erase_cons_head]
      exact p
    · rw [List.erase_cons_tail, List.erase_cons_tail]
      · exact ih.cons x
      · simp [hx]
      · simp [hx]
  | swap x y l =>
    by_cases hx : x = m <;> by_cases hy : y = m
    · subst hx; subst hy
      rw [List.erase_cons_head]
    · subst hx
      rw [List.erase_cons_tail (by simp [hy]), List.erase_cons_head,
        List.erase_cons_head]
    · subst hy
      rw [List.erase_cons_head, List.erase_cons_tail (by simp [hx]),
        List.erase_cons_head]
    · rw [List.erase_cons_tail (by simp [hy]), List.erase_cons_tail (by simp [hx]),
        List.erase_cons_tail (by simp [hx]), List.erase_cons_tail (by simp [hy])]
      exact List.Perm.swap _ _ _
  | trans p1 p2 ih1 ih2 => exact ih1.trans ih2

theorem popMin_perm {l l2 : List Entry} (hp : l.Perm l2) {m : Entry} {r : List Entry}
    (h : popMin l = some (m, r)) :
    popMin l2 = some (m, l2.erase m) ∧ r.Perm (l2.erase m) := by
  obtain ⟨hm, hle, hr⟩ := popMin_spec h
  have hm2 : m ∈ l2 := hp.mem_iff.mp hm
  have hle2 : ∀ x ∈ l2, eLe m x = true := fun x hx => hle x (hp.mem_iff.mpr hx)
  refine ⟨popMin_unique hm2 hle2, ?_⟩
  rw [hr]
  exact perm_erase_entry m hp


/-- The condition under which the source relaxes neighbour `c`: in bounds,
traversable, and strictly improving. -/
def RelaxCond (g : Grid) (rows cols : ℕ) (nd : ℕ) (dist : Cell → ℕ∞) (c : Cell) : Prop :=
  inB rows cols c ∧ gridGet g c.1 c.2 = some 0 ∧ (nd : ℕ∞) < dist c

instance (g : Grid) (rows cols nd : ℕ) (dist : Cell → ℕ∞) (c : Cell) :
    Decidable (RelaxCond g rows cols nd dist c) := by
  unfold RelaxCond; infer_instance

theorem relaxList_spec (g : Grid) (rows cols nd : ℕ) (cur : Cell)
    (nbs : List Cell) (hnd : nbs.Nodup) (s : DState)
    (hacc : ∀ nb ∈ nbs, inB rows cols nb → (gridGet g nb.1 nb.2).isSome) :
    ∃ s1, relaxList g rows cols nd cur s nbs = some s1 ∧
      (∀ c, c ∉ nbs → s1.dist c = s.dist c ∧ s1.prev c = s.prev c) ∧
      (∀ c ∈ nbs, RelaxCond g rows cols nd s.dist c →
          s1.dist c = (nd : ℕ∞) ∧ s1.prev c = some cur) ∧
      (∀ c ∈ nbs, ¬ RelaxCond g rows cols nd s.dist c →
          s1.dist c = s.dist c ∧ s1.prev c = s.prev c) ∧
      s1.queue = s.queue ++
        (nbs.filter (fun c => decide (RelaxCond g rows cols nd s.dist c))).map
          (fun c => (nd, c)) := by
  induction nbs generalizing s with
  | nil =>
    exact ⟨s, rfl, fun c _ => ⟨rfl, rfl⟩, fun c hc => absurd hc (List.not_mem_nil c),
      fun c hc => absurd hc (List.not_mem_nil c), by simp⟩
  | cons nb rest ih =>
    have hnbrest : nb ∉ rest := (List.nodup_cons.mp hnd).1
    have hrestnd : rest.Nodup := (List.nodup_cons.mp hnd).2
    have hraccr : ∀ x ∈ rest, inB rows cols x → (gridGet g x.1 x.2).isSome :=
      fun x hx => hacc x (List.mem_cons_of_mem _ hx)
    -- case split mirroring relaxCell
    by_cases hb : inB rows cols nb
    · rcases hget : gridGet g nb.1 nb.2 with _ | v
      · exact absurd (hacc nb (List.mem_cons_self _ _) hb) (by simp [hget])
      by_cases hv : v = 0
      · subst hv
        by_cases hlt : (nd : ℕ∞) < s.dist nb
        · -- the relaxation fires
          have hcell : relaxCell g rows cols nd cur s nb =
              some { dist := fun x => if x = nb then (nd : ℕ∞) else s.dist x,
                     prev := fun x => if x = nb then some cur else s.prev x,
                     queue := s.queue ++ [(nd, nb)] } := by
            simp [relaxCell, hb, hget, hlt]
          have hstep : relaxList g rows cols nd cur s (nb :: rest) =
              relaxList g rows cols nd cur
                { dist := fun x => if x = nb then (nd : ℕ∞) else s.dist x,
                  prev := fun x => if x = nb then some cur else s.prev x,
                  queue := s.queue ++ [(nd, nb)] } rest := by
            simp [relaxList, hcell]
          set sMid : DState :=
              { dist := fun x => if x = nb then (nd : ℕ∞) else s.dist x,
                prev := fun x => if x = nb then some cur else s.prev x,
                queue := s.queue ++ [(nd, nb)] } with hsMid
          obtain ⟨s1, heq, hnotin, hcond, hncond, hqueue⟩ := ih hrestnd sMid hraccr
          have hmidrest : ∀ c ∈ rest, sMid.dist c = s.dist c := by
            intro c hc
            have : c ≠ nb := fun h => hnbrest (h ▸ hc)
            simp [hsMid, this]
          have hcondiff : ∀ c ∈ rest,
              (RelaxCond g rows cols nd sMid.dist c ↔ RelaxCond g rows cols nd s.dist c) := by
            intro c hc
            unfold RelaxCond
            rw [hmidrest c hc]
          refine ⟨s1, hstep ▸ heq, ?_, ?_, ?_, ?_⟩
      -- continues below
          · intro c hc
            have hc1 : c ∉ rest := fun h => hc (List.mem_cons_of_mem _ h)
            have hc2 : c ≠ nb := fun h => hc (h ▸ List.mem_cons_self _ _)
            obtain ⟨hd, hp⟩ := hnotin c hc1
            constructor
            · rw [hd]; simp [hsMid, hc2]
            · rw [hp]; simp [hsMid, hc2]
          · intro c hc hcnd
            rcases List.mem_cons.mp hc with rfl | hcr
            · obtain ⟨hd, hp⟩ := hnotin c hnbrest
              constructor
              · rw [hd]; simp [hsMid]
              · rw [hp]; simp [hsMid]
            · exact hcond c hcr ((hcondiff c hcr).mpr hcnd)
          · intro c hc hcnd
            rcases List.mem_cons.mp hc with rfl | hcr
            · exact absurd ⟨hb, hget, hlt⟩ hcnd
            · obtain ⟨hd, hp⟩ := hncond c hcr fun h => hcnd ((hcondiff c hcr).mp h)
              have hcne : c ≠ nb := fun h => hnbrest (h ▸ hcr)
              exact ⟨by rw [hd]; simp [hsMid, hcne], by rw [hp]; simp [hsMid, hcne]⟩
          · rw [hqueue]
            have hfe : rest.filter (fun c => decide (RelaxCond g rows cols nd sMid.dist c)) =
                rest.filter (fun c => decide (RelaxCond g rows cols nd s.dist c)) := by
              apply List.filter_congr
              intro c hc
              simp only [decide_eq_decide]
              exact hcondiff c hc
            have hft : (nb :: rest).filter
                (fun c => decide (RelaxCond g rows cols nd s.dist c)) =
                nb :: rest.filter (fun c => decide (RelaxCond g rows cols nd s.dist c)) := by
              rw [List.filter_cons_of_pos]
              simp only [decide_eq_true_eq]
              exact ⟨hb, hget, hlt⟩
            rw [hfe, hft]
            simp [hsMid, List.append_assoc]
        · -- in bounds, traversable, but not an improvement: no-op
          have hcell : relaxCell g rows cols nd cur s nb = some s := by
            simp [relaxCell, hb, hget, hlt]
          have hstep : relaxList g rows cols nd cur s (nb :: rest) =
              relaxList g rows cols nd cur s rest := by
            simp [relaxList, hcell]
          obtain ⟨s1, heq, hnotin, hcond, hncond, hqueue⟩ := ih hrestnd s hraccr
          have hnc : ¬ RelaxCond g rows cols nd s.dist nb := fun h => hlt h.2.2
          refine ⟨s1, hstep ▸ heq, ?_, ?_, ?_, ?_⟩
          · intro c hc
            exact hnotin c fun h => hc (List.mem_cons_of_mem _ h)
          · intro c hc hcnd
            rcases List.mem_cons.mp hc with rfl | hcr
            · exact absurd hcnd hnc
            · exact hcond c hcr hcnd
          · intro c hc hcnd
            rcases List.mem_cons.mp hc with rfl | hcr
            · by_cases hcr2 : c ∈ rest
              · exact hncond c hcr2 hcnd
              · exact hnotin c hcr2
            · exact hncond c hcr hcnd
          · rw [hqueue, List.filter_cons_of_neg]
            simpa using hnc
      · -- obstacle: no-op
        have hcell : relaxCell g rows cols nd cur s nb = some s := by
          simp [relaxCell, hb, hget, hv]
        have hstep : relaxList g rows cols nd cur s (nb :: rest) =
            relaxList g rows cols nd cur s rest := by
          simp [relaxList, hcell]
        obtain ⟨s1, heq, hnotin, hcond, hncond, hqueue⟩ := ih hrestnd s hraccr
        have hnc : ¬ RelaxCond g rows cols nd s.dist nb := by
          rintro ⟨h1, h2, h3⟩
          rw [hget] at h2
          exact hv (by injection h2)
        refine ⟨s1, hstep ▸ heq, ?_, ?_, ?_, ?_⟩
        · intro c hc
          exact hnotin c fun h => hc (List.mem_cons_of_mem _ h)
        · intro c hc hcnd
          rcases List.mem_cons.mp hc with rfl | hcr
          · exact absurd hcnd hnc
          · exact hcond c hcr hcnd
        · intro c hc hcnd
          rcases List.mem_cons.mp hc with rfl | hcr
          · by_cases hcr2 : c ∈ rest
            · exact hncond c hcr2 hcnd
            · exact hnotin c hcr2
          · exact hncond c hcr hcnd
        · rw [hqueue, List.filter_cons_of_neg]
          simpa using hnc
    · -- out of bounds: no-op
      have hcell : relaxCell g rows cols nd cur s nb = some s := by
        simp [relaxCell, hb]
      have hstep : relaxList g rows cols nd cur s (nb :: rest) =
          relaxList g rows cols nd cur s rest := by
        simp [relaxList, hcell]
      obtain ⟨s1, heq, hnotin, hcond, hncond, hqueue⟩ := ih hrestnd s hraccr
      have hnc : ¬ RelaxCond g rows cols nd s.dist nb := fun h => hb h.1
      refine ⟨s1, hstep ▸ heq, ?_, ?_, ?_, ?_⟩
      · intro c hc
        exact hnotin c fun h => hc (List.mem_cons_of_mem _ h)
      · intro c hc hcnd
        rcases List.mem_cons.mp hc with rfl | hcr
        · exact absurd hcnd hnc
        · exact hcond c hcr hcnd
      · intro c hc hcnd
        rcases List.mem_cons.mp hc with rfl | hcr
        · by_cases hcr2 : c ∈ rest
          · exact hncond c hcr2 hcnd
          · exact hnotin c hcr2
        · exact hncond c hcr hcnd
      · rw [hqueue, List.filter_cons_of_neg]
        simpa using hnc

theorem neighborsOf_nodup (x : Cell) : (neighborsOf x).Nodup := by
  simp only [neighborsOf, List.nodup_cons, List.mem_cons, List.mem_singleton,
    List.not_mem_nil, or_false, Prod.mk.injEq, not_or, List.nodup_nil, and_true,
    true_and, not_false_eq_true]
  omega

theorem self_not_mem_neighbors (x : Cell) : x ∉ neighborsOf x := by
  simp only [neighborsOf, List.mem_cons, List.mem_singleton, List.not_mem_nil, or_false,
    Prod.ext_iff, not_or, and_true, true_and]
  omega


/-- Every in-bounds access succeeds; a consequence of rectangularity used to
rule out the `IndexError` branch. -/
def GridAcc (g : Grid) (rows cols : ℕ) : Prop :=
  ∀ x : Cell, inB rows cols x → (gridGet g x.1 x.2).isSome

theorem rect_gridAcc {g : Grid} (hrect : Rect g) :
    GridAcc g g.length (colsOf g) := by
  intro x hx
  obtain ⟨h1, h2, h3, h4⟩ := hx
  have hr : x.1.toNat < g.length := by omega
  have hrow : g[x.1.toNat]? = some g[x.1.toNat] := List.getElem?_eq_getElem hr
  have hmem : g[x.1.toNat] ∈ g := List.getElem_mem hr
  have hlen : (g[x.1.toNat]).length = colsOf g := hrect _ hmem
  have hc : x.2.toNat < (g[x.1.toNat]).length := by omega
  simp [gridGet, hrow, List.getElem?_eq_getElem hc]

/-- The invariant maintained by the main loop. -/
structure Inv (g : Grid) (rows cols : ℕ) (start goal : Cell) (s : DState) : Prop where
  dist_start : s.dist start = 0
  queue_lb : ∀ e ∈ s.queue, s.dist e.2 ≤ (e.1 : ℕ∞)
  sound : ∀ (c : Cell) (n : ℕ), s.dist c = (n : ℕ∞) → NWalk g rows cols start c n
  cover : ∀ (c : Cell) (n : ℕ), s.dist c = (n : ℕ∞) → (n, c) ∈ s.queue ∨
      ∀ nb ∈ neighborsOf c, OkCell g rows cols nb → s.dist nb ≤ (n : ℕ∞) + 1
  goal_pending : ∀ n : ℕ, s.dist goal = (n : ℕ∞) → (n, goal) ∈ s.queue
  prev_none : ∀ c, s.prev c = none → s.dist c ≠ ⊤ → c = start
  prev_step : ∀ c pc, s.prev c = some pc →
      Adj pc c ∧ OkCell g rows cols c ∧ s.dist pc + 1 ≤ s.dist c ∧ s.dist c ≠ ⊤

theorem inv_init (g : Grid) (rows cols : ℕ) (start goal : Cell) :
    Inv g rows cols start goal (initState start) := by
  constructor
  · simp [initState]
  · intro e he
    simp only [initState, List.mem_singleton] at he
    subst he
    simp [initState]
  · intro c n hc
    simp only [initState] at hc
    by_cases h : c = start
    · subst h
      rw [if_pos rfl] at hc
      have : n = 0 := by exact_mod_cast hc.symm
      subst this
      exact NWalk.nil
    · rw [if_neg h] at hc
      exact absurd hc.symm (ENat.coe_ne_top n)
  · intro c n hc
    simp only [initState] at hc
    by_cases h : c = start
    · subst h
      rw [if_pos rfl] at hc
      have : n = 0 := by exact_mod_cast hc.symm
      subst this
      left
      simp [initState]
    · rw [if_neg h] at hc
      exact absurd hc.symm (ENat.coe_ne_top n)
  · intro n hg
    simp only [initState] at hg
    by_cases h : goal = start
    · rw [if_pos h] at hg
      have : n = 0 := by exact_mod_cast hg.symm
      subst this
      simp [initState, h]
    · rw [if_neg h] at hg
      exact absurd hg.symm (ENat.coe_ne_top n)
  · intro c _ hc
    simp only [initState] at hc
    by_cases h : c = start
    · exact h
    · rw [if_neg h] at hc
      exact absurd rfl hc
  · intro c pc hc
    simp [initState] at hc

theorem inv_stale {g : Grid} {rows cols : ℕ} {start goal : Cell} {s : DState}
    {d : ℕ} {cur : Cell} {q1 : List Entry}
    (hinv : Inv g rows cols start goal s)
    (hpop : popMin s.queue = some ((d, cur), q1))
    (hstale : (d : ℕ∞) > s.dist cur) :
    Inv g rows cols start goal { s with queue := q1 } := by
  obtain ⟨hm, hle, hq1⟩ := popMin_spec hpop
  have hsub : ∀ e ∈ q1, e ∈ s.queue := by
    intro e he
    rw [hq1] at he
    exact List.mem_of_mem_erase he
  have hkeep : ∀ (e : Entry), e ∈ s.queue → s.dist e.2 = (e.1 : ℕ∞) → e ∈ q1 := by
    intro e he hde
    have hne : e ≠ (d, cur) := by
      intro h
      subst h
      rw [hde] at hstale
      exact lt_irrefl _ hstale
    rw [hq1]
    exact (List.mem_erase_of_ne hne).mpr he
  constructor
  · exact hinv.dist_start
  · intro e he
    exact hinv.queue_lb e (hsub e he)
  · exact hinv.sound
  · intro c n hc
    rcases hinv.cover c n hc with hq | hp
    · exact Or.inl (hkeep (n, c) hq hc)
    · exact Or.inr hp
  · intro n hg
    exact hkeep (n, goal) (hinv.goal_pending n hg) hg
  · exact hinv.prev_none
  · exact hinv.prev_step

theorem inv_expand {g : Grid} {rows cols : ℕ} {start goal : Cell} {s s1 : DState}
    {d : ℕ} {cur : Cell} {q1 : List Entry}
    (hacc : GridAcc g rows cols)
    (hinv : Inv g rows cols start goal s)
    (hpop : popMin s.queue = some ((d, cur), q1))
    (hstale : ¬ (d : ℕ∞) > s.dist cur)
    (hng : cur ≠ goal)
    (hrelax : relaxList g rows cols (d + 1) cur { s with queue := q1 }
        (neighborsOf cur) = some s1) :
    Inv g rows cols start goal s1 := by
  obtain ⟨hm, hle, hq1⟩ := popMin_spec hpop
  have hdcur : s.dist cur = (d : ℕ∞) :=
    le_antisymm (hinv.queue_lb _ hm) (not_lt.mp hstale)
  obtain ⟨s2, heq2, hnotin, hcond, hncond, hqueue⟩ :=
    relaxList_spec g rows cols (d + 1) cur (neighborsOf cur) (neighborsOf_nodup cur)
      { s with queue := q1 } (fun nb _ h => hacc nb h)
  rw [heq2] at hrelax
  have hs12 : s1 = s2 := (Option.some.inj hrelax).symm
  subst hs12
  -- classification of every cell after the neighbour loop
  have hclass : ∀ c, (s1.dist c = s.dist c ∧ s1.prev c = s.prev c) ∨
      (c ∈ neighborsOf cur ∧ RelaxCond g rows cols (d + 1) s.dist c ∧
        s1.dist c = ((d + 1 : ℕ) : ℕ∞) ∧ s1.prev c = some cur) := by
    intro c
    by_cases hc : c ∈ neighborsOf cur
    · by_cases hcnd : RelaxCond g rows cols (d + 1) s.dist c
      · exact Or.inr ⟨hc, hcnd, (hcond c hc hcnd).1, (hcond c hc hcnd).2⟩
      · exact Or.inl (hncond c hc hcnd)
    · exact Or.inl (hnotin c hc)
  have hmono : ∀ c, s1.dist c ≤ s.dist c := by
    intro c
    rcases hclass c with ⟨h1, _⟩ | ⟨_, hcnd, h1, _⟩
    · exact h1.le
    · rw [h1]
      exact le_of_lt hcnd.2.2
  have hcurkeep : s1.dist cur = s.dist cur ∧ s1.prev cur = s.prev cur := by
    rcases hclass cur with h | ⟨hc, _, _, _⟩
    · exact h
    · exact absurd hc (self_not_mem_neighbors cur)
  have hpushmem : ∀ c ∈ neighborsOf cur, RelaxCond g rows cols (d + 1) s.dist c →
      ((d + 1 : ℕ), c) ∈ s1.queue := by
    intro c hc hcnd
    rw [hqueue]
    refine List.mem_append_right _ ?_
    refine List.mem_map.mpr ⟨c, ?_, rfl⟩
    refine List.mem_filter.mpr ⟨hc, by simpa using hcnd⟩
  have hq1mem : ∀ e ∈ q1, e ∈ s1.queue := by
    intro e he
    rw [hqueue]
    exact List.mem_append_left _ he
  have hkeep : ∀ (e : Entry), e ∈ s.queue → e ≠ (d, cur) → e ∈ s1.queue := by
    intro e he hne
    refine hq1mem e ?_
    rw [hq1]
    exact (List.mem_erase_of_ne hne).mpr he
  constructor
  · rcases hclass start with ⟨h1, _⟩ | ⟨_, hcnd, _, _⟩
    · rw [h1]
      exact hinv.dist_start
    · have h0 := hcnd.2.2
      rw [hinv.dist_start] at h0
      simp at h0
  · -- queue_lb
    intro e he
    rw [hqueue] at he
    rcases List.mem_append.mp he with he | he
    · exact le_trans (hmono e.2) (hinv.queue_lb e (List.mem_of_mem_erase (hq1 ▸ he)))
    · obtain ⟨c, hcf, hec⟩ := List.mem_map.mp he
      obtain ⟨hcnb, hcnd⟩ := List.mem_filter.mp hcf
      have hrc : RelaxCond g rows cols (d + 1) s.dist c := of_decide_eq_true hcnd
      subst hec
      exact ((hcond c hcnb hrc).1).le
  · -- sound
    intro c n hc
    rcases hclass c with ⟨h1, _⟩ | ⟨hcnb, hcnd, h1, _⟩
    · exact hinv.sound c n (h1 ▸ hc)
    · rw [h1] at hc
      have hn : n = d + 1 := by exact_mod_cast hc.symm
      subst hn
      exact NWalk.cons (hinv.sound cur d hdcur) hcnb ⟨hcnd.1, hcnd.2.1⟩
  · -- cover
    intro c n hc
    rcases hclass c with ⟨h1, _⟩ | ⟨hcnb, hcnd, h1, _⟩
    · -- cell untouched by the neighbour loop
      by_cases hcur : c = cur
      · subst hcur
        right
        intro nb hnb hok
        have hnd : n = d := by
          have h2 : (n : ℕ∞) = (d : ℕ∞) := by rw [← hc, h1, hdcur]
          exact_mod_cast h2
        rw [hnd]
        by_cases hrc : RelaxCond g rows cols (d + 1) s.dist nb
        · rw [(hcond nb hnb hrc).1]
          rw [show ((d : ℕ∞) + 1) = ((d + 1 : ℕ) : ℕ∞) by push_cast; rfl]
        · have hnb2 : s1.dist nb = s.dist nb := (hncond nb hnb hrc).1
          rw [hnb2]
          have hnlt : ¬ ((d + 1 : ℕ) : ℕ∞) < s.dist nb := fun h => hrc ⟨hok.1, hok.2, h⟩
          have h2 := not_lt.mp hnlt
          calc s.dist nb ≤ ((d + 1 : ℕ) : ℕ∞) := h2
            _ = (d : ℕ∞) + 1 := by push_cast; rfl
      · rcases hinv.cover c n (h1 ▸ hc) with hq | hp
        · left
          refine hkeep (n, c) hq ?_
          intro hcontra
          exact hcur (congrArg Prod.snd hcontra)
        · right
          intro nb hnb hok
          exact le_trans (hmono nb) (hp nb hnb hok)
    · -- cell relaxed in this iteration: its fresh entry is in the queue
      left
      rw [h1] at hc
      have hn : n = d + 1 := by exact_mod_cast hc.symm
      subst hn
      exact hpushmem c hcnb hcnd
  · -- goal_pending
    intro n hg
    rcases hclass goal with ⟨h1, _⟩ | ⟨hcnb, hcnd, h1, _⟩
    · have hold := hinv.goal_pending n (h1 ▸ hg)
      refine hkeep (n, goal) hold ?_
      intro hcontra
      exact hng (congrArg Prod.snd hcontra).symm
    · rw [h1] at hg
      have hn : n = d + 1 := by exact_mod_cast hg.symm
      subst hn
      exact hpushmem goal hcnb hcnd
  · -- prev_none
    intro c hcp hcd
    rcases hclass c with ⟨h1, h2⟩ | ⟨_, _, _, h2⟩
    · exact hinv.prev_none c (h2 ▸ hcp) (h1 ▸ hcd)
    · rw [h2] at hcp
      exact absurd hcp (by simp)
  · -- prev_step
    intro c pc hcp
    rcases hclass c with ⟨h1, h2⟩ | ⟨hcnb, hcnd, h1, h2⟩
    · obtain ⟨ha, hok, hstep, htop⟩ := hinv.prev_step c pc (h2 ▸ hcp)
      refine ⟨ha, hok, ?_, h1 ▸ htop⟩
      calc s1.dist pc + 1 ≤ s.dist pc + 1 := add_le_add_right (hmono pc) 1
        _ ≤ s.dist c := hstep
        _ = s1.dist c := h1.symm
    · rw [h2] at hcp
      have hpc : pc = cur := by
        injection hcp with h
        exact h.symm
      subst hpc
      refine ⟨hcnb, ⟨hcnd.1, hcnd.2.1⟩, ?_, by rw [h1]; exact ENat.coe_ne_top _⟩
      rw [h1, hcurkeep.1, hdcur]
      rw [show ((d + 1 : ℕ) : ℕ∞) = (d : ℕ∞) + 1 by push_cast; rfl]


theorem enat_exists_coe {x : ℕ∞} (hx : x ≠ ⊤) : ∃ k : ℕ, x = (k : ℕ∞) := by
  obtain ⟨k, hk⟩ := WithTop.ne_top_iff_exists.mp hx
  exact ⟨k, hk.symm⟩

theorem recon_ok {g : Grid} {rows cols : ℕ} {start goal : Cell} {s : DState}
    (hinv : Inv g rows cols start goal s) :
    ∀ (fuel : ℕ) (c : Cell) (m : ℕ), s.dist c = (m : ℕ∞) → m < fuel →
    ∀ acc : List Cell, ∃ tail : List Cell,
      reconstructLoop start s.prev fuel c acc =
          some ((acc ++ tail ++ [start]).reverse) ∧
      (∀ x ∈ tail, OkCell g rows cols x) ∧
      List.Chain' Adj (start :: tail.reverse) ∧
      (start :: tail.reverse).getLast? = some c ∧
      tail.length ≤ m := by
  intro fuel
  induction fuel with
  | zero => intro c m _ hm; omega
  | succ fuel ih =>
    intro c m hc hm acc
    cases hp : s.prev c with
    | none =>
      refine ⟨[], ?_, by simp, ?_, ?_, Nat.zero_le m⟩
      · simp [reconstructLoop, hp]
      · simp [List.chain'_singleton]
      · have hcs : c = start :=
          hinv.prev_none c hp (by rw [hc]; exact ENat.coe_ne_top m)
        simp [hcs]
    | some pc =>
      obtain ⟨hadj, hok, hstep, htop⟩ := hinv.prev_step c pc hp
      have hpctop : s.dist pc ≠ ⊤ := by
        intro h
        rw [h] at hstep
        rw [hc] at hstep
        simp at hstep
      obtain ⟨mp, hmp⟩ := enat_exists_coe hpctop
      have hmp2 : mp + 1 ≤ m := by
        have h2 : ((mp + 1 : ℕ) : ℕ∞) ≤ (m : ℕ∞) := by
          rw [hc] at hstep
          rw [hmp] at hstep
          calc ((mp + 1 : ℕ) : ℕ∞) = (mp : ℕ∞) + 1 := by push_cast; rfl
            _ ≤ (m : ℕ∞) := hstep
        exact_mod_cast h2
      obtain ⟨tail2, heq, hokt, hchain, hlast, hlen⟩ :=
        ih pc mp hmp (by omega) (acc ++ [c])
      refine ⟨c :: tail2, ?_, ?_, ?_, ?_, by simp; omega⟩
      · have hshape : (acc ++ [c]) ++ tail2 ++ [start] = acc ++ (c :: tail2) ++ [start] := by
          simp [List.append_assoc]
        rw [show reconstructLoop start s.prev (fuel + 1) c acc =
            reconstructLoop start s.prev fuel pc (acc ++ [c]) by
          simp [reconstructLoop, hp]]
        rw [heq, hshape]
      · intro x hx
        rcases List.mem_cons.mp hx with rfl | hx2
        · exact hok
        · exact hokt x hx2
      · have hsplit : start :: (c :: tail2).reverse =
            (start :: tail2.reverse) ++ [c] := by simp
        rw [hsplit, List.chain'_append]
        refine ⟨hchain, List.chain'_singleton c, ?_⟩
        intro x hx y hy
        simp only [List.head?_cons, Option.mem_def, Option.some.injEq] at hy
        rw [hlast] at hx
        simp only [Option.mem_def, Option.some.injEq] at hx
        subst hx
        subst hy
        exact hadj
      · have hsplit : start :: (c :: tail2).reverse =
            (start :: tail2.reverse) ++ [c] := by simp
        rw [hsplit, List.getLast?_concat]

theorem pop_min_walk_bound {g : Grid} {rows cols : ℕ} {start goal : Cell}
    {s : DState} {d : ℕ} {cur : Cell} {q1 : List Entry}
    (hinv : Inv g rows cols start goal s)
    (hpop : popMin s.queue = some ((d, cur), q1)) :
    ∀ (z : Cell) (n : ℕ), NWalk g rows cols start z n →
      d ≤ n ∨ s.dist z ≤ (n : ℕ∞) := by
  obtain ⟨hm, hle, _⟩ := popMin_spec hpop
  intro z n hw
  induction hw with
  | nil =>
    right
    rw [hinv.dist_start]
    exact zero_le _
  | @cons c k c2 hw hadj hok ih =>
    rcases ih with hdk | hdist
    · exact Or.inl (by omega)
    · have hne : s.dist c ≠ ⊤ := by
        intro h
        rw [h] at hdist
        exact ENat.coe_ne_top k (top_le_iff.mp hdist)
      obtain ⟨kc, hkc⟩ := enat_exists_coe hne
      have hkck : kc ≤ k := by
        rw [hkc] at hdist
        exact_mod_cast hdist
      rcases hinv.cover c kc hkc with hq | hproc
      · left
        have := eLe_first (hle (kc, c) hq)
        omega
      · right
        calc s.dist c2 ≤ (kc : ℕ∞) + 1 := hproc c2 hadj hok
          _ ≤ (k : ℕ∞) + 1 := by
              exact add_le_add_right (by exact_mod_cast hkck) 1
          _ = ((k + 1 : ℕ) : ℕ∞) := by push_cast; rfl

theorem empty_queue_no_walk {g : Grid} {rows cols : ℕ} {start goal : Cell}
    {s : DState} (hinv : Inv g rows cols start goal s) (hq : s.queue = []) :
    ∀ n : ℕ, ¬ NWalk g rows cols start goal n := by
  have hproc : ∀ (c : Cell) (n : ℕ), s.dist c = (n : ℕ∞) →
      ∀ nb ∈ neighborsOf c, OkCell g rows cols nb → s.dist nb ≤ (n : ℕ∞) + 1 := by
    intro c n hc
    rcases hinv.cover c n hc with hmem | hp
    · rw [hq] at hmem
      simp at hmem
    · exact hp
  have hfin : ∀ (z : Cell) (n : ℕ), NWalk g rows cols start z n →
      ∃ k : ℕ, k ≤ n ∧ s.dist z = (k : ℕ∞) := by
    intro z n hw
    induction hw with
    | nil =>
      refine ⟨0, le_refl 0, ?_⟩
      rw [hinv.dist_start]
      norm_cast
    | @cons c k c2 hw hadj hok ih =>
      obtain ⟨kc, hkck, hkc⟩ := ih
      have h2 : s.dist c2 ≤ (kc : ℕ∞) + 1 := hproc c kc hkc c2 hadj hok
      have hne : s.dist c2 ≠ ⊤ := by
        intro h
        rw [h] at h2
        have h3 : ((kc + 1 : ℕ) : ℕ∞) = ⊤ := by
          rw [show ((kc + 1 : ℕ) : ℕ∞) = (kc : ℕ∞) + 1 by push_cast; rfl]
          exact top_le_iff.mp (h ▸ h2)
        exact ENat.coe_ne_top (kc + 1) h3
      obtain ⟨k2, hk2⟩ := enat_exists_coe hne
      refine ⟨k2, ?_, hk2⟩
      have h4 : ((k2 : ℕ) : ℕ∞) ≤ ((kc + 1 : ℕ) : ℕ∞) := by
        rw [← hk2]
        rw [show ((kc + 1 : ℕ) : ℕ∞) = (kc : ℕ∞) + 1 by push_cast; rfl]
        exact h2
      have h5 : k2 ≤ kc + 1 := by exact_mod_cast h4
      omega
  intro n hw
  obtain ⟨k, _, hk⟩ := hfin goal n hw
  have hmem := hinv.goal_pending k hk
  rw [hq] at hmem
  simp at hmem

/-- Cells that could still be relaxed when every future popped distance is at
least `fl`: the termination/fuel measure counts them. -/
def pushSet (g : Grid) (rows cols : ℕ) (fl : ℕ) (dist : Cell → ℕ∞) : Finset Cell :=
  ((Finset.Icc (0 : ℤ) ((rows : ℤ) - 1)) ×ˢ (Finset.Icc (0 : ℤ) ((cols : ℤ) - 1))).filter
    (fun c => gridGet g c.1 c.2 = some 0 ∧ ((fl + 1 : ℕ) : ℕ∞) < dist c)

theorem mem_pushSet {g : Grid} {rows cols fl : ℕ} {dist : Cell → ℕ∞} {c : Cell} :
    c ∈ pushSet g rows cols fl dist ↔
      inB rows cols c ∧ gridGet g c.1 c.2 = some 0 ∧ ((fl + 1 : ℕ) : ℕ∞) < dist c := by
  simp only [pushSet, Finset.mem_filter, Finset.mem_product, Finset.mem_Icc, inB]
  constructor
  · rintro ⟨⟨⟨h1, h2⟩, h3, h4⟩, h5, h6⟩
    exact ⟨⟨h1, by omega, h3, by omega⟩, h5, h6⟩
  · rintro ⟨⟨h1, h2, h3, h4⟩, h5, h6⟩
    exact ⟨⟨⟨h1, by omega⟩, h3, by omega⟩, h5, h6⟩

theorem pushSet_card_le (g : Grid) (rows cols fl : ℕ) (dist : Cell → ℕ∞) :
    (pushSet g rows cols fl dist).card ≤ rows * cols := by
  calc (pushSet g rows cols fl dist).card
      ≤ ((Finset.Icc (0 : ℤ) ((rows : ℤ) - 1)) ×ˢ
          (Finset.Icc (0 : ℤ) ((cols : ℤ) - 1))).card := Finset.card_filter_le _ _
    _ = rows * cols := by
        rw [Finset.card_product, Int.card_Icc, Int.card_Icc]
        simp only [sub_zero]
        rw [show (rows : ℤ) - 1 + 1 = (rows : ℤ) by ring,
          show (cols : ℤ) - 1 + 1 = (cols : ℤ) by ring]
        simp [Int.toNat_natCast]

theorem pushSet_decrease (g : Grid) (rows cols : ℕ) {fl d : ℕ} (hfl : fl ≤ d)
    (cur : Cell) (dist dist2 : Cell → ℕ∞)
    (hmono : ∀ c, dist2 c ≤ dist c)
    (hpush : ∀ c ∈ (neighborsOf cur).filter
        (fun c => decide (RelaxCond g rows cols (d + 1) dist c)),
        dist2 c = ((d + 1 : ℕ) : ℕ∞)) :
    (pushSet g rows cols d dist2).card +
      ((neighborsOf cur).filter
        (fun c => decide (RelaxCond g rows cols (d + 1) dist c))).length
      ≤ (pushSet g rows cols fl dist).card := by
  set L := (neighborsOf cur).filter
      (fun c => decide (RelaxCond g rows cols (d + 1) dist c)) with hL
  have hnd : L.Nodup := (neighborsOf_nodup cur).filter _
  have hlen : L.length = L.toFinset.card := (List.toFinset_card_of_nodup hnd).symm
  have hmemL : ∀ c, c ∈ L → RelaxCond g rows cols (d + 1) dist c := by
    intro c hc
    rw [hL] at hc
    exact of_decide_eq_true (List.mem_filter.mp hc).2
  have hPsub : L.toFinset ⊆ pushSet g rows cols fl dist := by
    intro c hc
    rw [List.mem_toFinset] at hc
    obtain ⟨h1, h2, h3⟩ := hmemL c hc
    refine mem_pushSet.mpr ⟨h1, h2, lt_of_le_of_lt ?_ h3⟩
    exact_mod_cast Nat.succ_le_succ hfl
  have hsub2 : pushSet g rows cols d dist2 ⊆
      (pushSet g rows cols fl dist) \ L.toFinset := by
    intro c hc
    obtain ⟨h1, h2, h3⟩ := mem_pushSet.mp hc
    refine Finset.mem_sdiff.mpr ⟨?_, ?_⟩
    · exact mem_pushSet.mpr ⟨h1, h2, lt_of_lt_of_le
        (lt_of_le_of_lt (by exact_mod_cast Nat.succ_le_succ hfl) h3) (hmono c)⟩
    · intro hcL
      rw [List.mem_toFinset] at hcL
      rw [hpush c hcL] at h3
      exact lt_irrefl _ h3
  calc (pushSet g rows cols d dist2).card + L.length
      ≤ ((pushSet g rows cols fl dist) \ L.toFinset).card + L.toFinset.card :=
        Nat.add_le_add (Finset.card_le_card hsub2) hlen.le
    _ = (pushSet g rows cols fl dist).card :=
        Finset.card_sdiff_add_card_eq_card hPsub


theorem loop_main (g : Grid) (rows cols : ℕ) (start goal : Cell)
    (hacc : GridAcc g rows cols) :
    ∀ (fuel fl : ℕ) (s : DState),
      Inv g rows cols start goal s →
      (∀ e ∈ s.queue, fl ≤ e.1) →
      s.queue.length + (pushSet g rows cols fl s.dist).card < fuel →
      (dijkstraLoop g rows cols start goal fuel s ≠ .exn ∧
       dijkstraLoop g rows cols start goal fuel s ≠ .fuelOut) ∧
      (∀ p, dijkstraLoop g rows cols start goal fuel s = .path p →
        p.head? = some start ∧ p.getLast? = some goal ∧ List.Chain' Adj p ∧
        (∀ x ∈ p, x = start ∨ OkCell g rows cols x) ∧
        ∀ n : ℕ, NWalk g rows cols start goal n → p.length ≤ n + 1) ∧
      (dijkstraLoop g rows cols start goal fuel s = .noPath →
        ∀ n : ℕ, ¬ NWalk g rows cols start goal n) := by
  intro fuel
  induction fuel with
  | zero => intro fl s _ _ hcount; omega
  | succ fuel ih =>
    intro fl s hinv hfl hcount
    cases hpop : popMin s.queue with
    | none =>
      have hq : s.queue = [] := popMin_none.mp hpop
      have hloop : dijkstraLoop g rows cols start goal (fuel + 1) s = .noPath := by
        simp [dijkstraLoop, dijkstraStep, hpop]
      rw [hloop]
      refine ⟨⟨by simp, by simp⟩, ?_, ?_⟩
      · intro p hp
        exact absurd hp (by simp)
      · intro _
        exact empty_queue_no_walk hinv hq
    | some md =>
      obtain ⟨⟨d, cur⟩, q1⟩ := md
      obtain ⟨hm, hle, hq1⟩ := popMin_spec hpop
      have hql : 1 ≤ s.queue.length := List.length_pos.mpr (List.ne_nil_of_mem hm)
      have hq1len : q1.length = s.queue.length - 1 := by
        rw [hq1]
        exact List.length_erase_of_mem hm
      by_cases hstale : (d : ℕ∞) > s.dist cur
      · -- stale entry: skip
        have hloop : dijkstraLoop g rows cols start goal (fuel + 1) s =
            dijkstraLoop g rows cols start goal fuel { s with queue := q1 } := by
          simp [dijkstraLoop, dijkstraStep, hpop, hstale]
        rw [hloop]
        refine ih fl { s with queue := q1 } (inv_stale hinv hpop hstale) ?_ ?_
        · intro e he
          exact hfl e (List.mem_of_mem_erase (hq1 ▸ he))
        · dsimp only
          omega
      · by_cases hgoal : cur = goal
        · -- goal reached: reconstruct
          have hdg : s.dist goal = (d : ℕ∞) := by
            rw [← hgoal]
            exact le_antisymm (hinv.queue_lb _ hm) (not_lt.mp hstale)
          obtain ⟨tail, hrec, hokt, hchain, hlast, hlen⟩ :=
            recon_ok hinv (d + 1) goal d hdg (by omega) []
          have hloop : dijkstraLoop g rows cols start goal (fuel + 1) s =
              .path (([] ++ tail ++ [start]).reverse) := by
            simp only [dijkstraLoop, dijkstraStep, hpop, hgoal, if_true]
            rw [hgoal] at hstale
            rw [if_neg hstale, hrec]
          rw [hloop]
          refine ⟨⟨by simp, by simp⟩, ?_, ?_⟩
          · intro p hp
            simp only [PyRes.path.injEq] at hp
            subst hp
            have hPs : ([] ++ tail ++ [start]).reverse = start :: tail.reverse := by simp
            rw [hPs]
            refine ⟨rfl, hlast, hchain, ?_, ?_⟩
            · intro x hx
              rcases List.mem_cons.mp hx with rfl | hx2
              · exact Or.inl rfl
              · exact Or.inr (hokt x (List.mem_reverse.mp hx2))
            · intro n hw
              have hmin := pop_min_walk_bound hinv hpop goal n hw
              have hdn : d ≤ n := by
                rcases hmin with h | h
                · exact h
                · rw [hdg] at h
                  exact_mod_cast h
              simp only [List.length_cons, List.length_reverse]
              omega
          · intro hnp
            exact absurd hnp (by simp)
        · -- expand the current node
          obtain ⟨s2, heq2, hnotin, hcond, hncond, hqueue⟩ :=
            relaxList_spec g rows cols (d + 1) cur (neighborsOf cur)
              (neighborsOf_nodup cur) { s with queue := q1 } (fun nb _ h => hacc nb h)
          dsimp only at heq2 hnotin hcond hncond hqueue
          have hloop : dijkstraLoop g rows cols start goal (fuel + 1) s =
              dijkstraLoop g rows cols start goal fuel s2 := by
            simp [dijkstraLoop, dijkstraStep, hpop, hstale, hgoal, heq2]
          rw [hloop]
          have hinv2 : Inv g rows cols start goal s2 :=
            inv_expand hacc hinv hpop hstale hgoal heq2
          have hfld : fl ≤ d := hfl (d, cur) hm
          have hfl2 : ∀ e ∈ s2.queue, d ≤ e.1 := by
            intro e he
            rw [hqueue] at he
            rcases List.mem_append.mp he with he | he
            · exact eLe_first (hle e (List.mem_of_mem_erase (hq1 ▸ he)))
            · obtain ⟨c, _, hec⟩ := List.mem_map.mp he
              rw [← hec]
              exact Nat.le_succ d
          refine ih d s2 hinv2 hfl2 ?_
          have hmono : ∀ c, s2.dist c ≤ s.dist c := by
            intro c
            by_cases hc : c ∈ neighborsOf cur
            · by_cases hcnd : RelaxCond g rows cols (d + 1) s.dist c
              · rw [(hcond c hc hcnd).1]
                exact le_of_lt hcnd.2.2
              · rw [(hncond c hc hcnd).1]
            · rw [(hnotin c hc).1]
          have hpush2 : ∀ c ∈ (neighborsOf cur).filter
              (fun c => decide (RelaxCond g rows cols (d + 1) s.dist c)),
              s2.dist c = ((d + 1 : ℕ) : ℕ∞) := by
            intro c hc
            obtain ⟨hcnb, hcd⟩ := List.mem_filter.mp hc
            exact (hcond c hcnb (of_decide_eq_true hcd)).1
          have hdec := pushSet_decrease g rows cols hfld cur s.dist s2.dist hmono hpush2
          have hlen2 : s2.queue.length = q1.length + ((neighborsOf cur).filter
              (fun c => decide (RelaxCond g rows cols (d + 1) s.dist c))).length := by
            rw [hqueue]
            simp
          omega


theorem chain_to_nwalk (g : Grid) (rows cols : ℕ) (a : Cell) :
    ∀ (p : List Cell) (b : Cell), p.head? = some a → p.getLast? = some b →
      List.Chain' Adj p → (∀ x ∈ p, OkCell g rows cols x) →
      NWalk g rows cols a b (p.length - 1) := by
  intro p
  induction p using List.reverseRecOn with
  | nil =>
    intro b hh _ _ _
    simp at hh
  | append_singleton q c ihq =>
    intro b hhead hlast hchain hcells
    have hb : c = b := by
      rw [List.getLast?_concat] at hlast
      exact Option.some.inj hlast
    subst hb
    cases q with
    | nil =>
      have hha : c = a := by simpa using hhead
      subst hha
      exact NWalk.nil
    | cons q0 qrest =>
      have hhead2 : (q0 :: qrest).head? = some a := by
        simpa using hhead
      rw [List.chain'_append] at hchain
      obtain ⟨hch1, _, hlink⟩ := hchain
      obtain ⟨lq, hlq⟩ : ∃ lq, (q0 :: qrest).getLast? = some lq :=
        ⟨(q0 :: qrest).getLast (by simp), List.getLast?_eq_getLast _ _⟩
      have hwalk := ihq lq hhead2 hlq hch1
        (fun x hx => hcells x (List.mem_append_left _ hx))
      have hadj : Adj lq c := hlink lq hlq c rfl
      have hokc : OkCell g rows cols c :=
        hcells c (List.mem_append_right _ (List.mem_singleton_self c))
      have hfin := NWalk.cons (hwalk) hadj hokc
      have hlen : ((q0 :: qrest) ++ [c]).length - 1 = ((q0 :: qrest).length - 1) + 1 := by
        simp
      rw [hlen]
      exact hfin

theorem nwalk_to_list {g : Grid} {rows cols : ℕ} {s : Cell}
    (hok : OkCell g rows cols s) :
    ∀ {c : Cell} {n : ℕ}, NWalk g rows cols s c n →
      ∃ p : List Cell, p.head? = some s ∧ p.getLast? = some c ∧ List.Chain' Adj p ∧
        (∀ x ∈ p, OkCell g rows cols x) ∧ p.length = n + 1 := by
  intro c n hw
  induction hw with
  | nil =>
    refine ⟨[s], rfl, rfl, List.chain'_singleton s, ?_, rfl⟩
    intro x hx
    rw [List.mem_singleton.mp hx]
    exact hok
  | @cons c k c2 hw hadj hok2 ih =>
    obtain ⟨p, hh, hl, hc, hcells, hlen⟩ := ih
    obtain ⟨t, ht⟩ : ∃ t, p = s :: t := by
      cases p with
      | nil => simp at hh
      | cons p0 pt =>
        have hp0 : p0 = s := by simpa using hh
        exact ⟨pt, by rw [hp0]⟩
    refine ⟨p ++ [c2], ?_, ?_, ?_, ?_, ?_⟩
    · rw [ht]
      simp
    · exact List.getLast?_concat p
    · rw [List.chain'_append]
      refine ⟨hc, List.chain'_singleton c2, ?_⟩
      intro x hx y hy
      simp only [List.head?_cons, Option.mem_def, Option.some.injEq] at hy
      rw [hl] at hx
      simp only [Option.mem_def, Option.some.injEq] at hx
      subst hx
      subst hy
      exact hadj
    · intro x hx
      rcases List.mem_append.mp hx with hx2 | hx2
      · exact hcells x hx2
      · rw [List.mem_singleton.mp hx2]
        exact hok2
    · simp [hlen]

theorem relaxList_dist_mono (g : Grid) (rows cols nd : ℕ) (cur : Cell) :
    ∀ (nbs : List Cell) (s s2 : DState),
      relaxList g rows cols nd cur s nbs = some s2 → ∀ c, s2.dist c ≤ s.dist c := by
  intro nbs
  induction nbs with
  | nil =>
    intro s s2 h c
    simp only [relaxList] at h
    rw [← Option.some.inj h]
  | cons nb rest ih =>
    intro s s2 h c
    by_cases hb : inB rows cols nb
    · cases hget : gridGet g nb.1 nb.2 with
      | none => simp [relaxList, relaxCell, hb, hget] at h
      | some v =>
        by_cases hv : v = 0
        · subst hv
          by_cases hlt : (nd : ℕ∞) < s.dist nb
          · have h2 : relaxList g rows cols nd cur
                { dist := fun x => if x = nb then (nd : ℕ∞) else s.dist x,
                  prev := fun x => if x = nb then some cur else s.prev x,
                  queue := s.queue ++ [(nd, nb)] } rest = some s2 := by
              rw [← h]
              simp [relaxList, relaxCell, hb, hget, hlt]
            have h3 := ih _ s2 h2 c
            by_cases hcnb : c = nb
            · subst hcnb
              calc s2.dist c ≤ (nd : ℕ∞) := by simpa using h3
                _ ≤ s.dist c := le_of_lt hlt
            · simpa [hcnb] using h3
          · have h2 : relaxList g rows cols nd cur s rest = some s2 := by
              rw [← h]
              simp [relaxList, relaxCell, hb, hget, hlt]
            exact ih s s2 h2 c
        · have h2 : relaxList g rows cols nd cur s rest = some s2 := by
            rw [← h]
            simp [relaxList, relaxCell, hb, hget, hv]
          exact ih s s2 h2 c
    · have h2 : relaxList g rows cols nd cur s rest = some s2 := by
        rw [← h]
        simp [relaxList, relaxCell, hb]
      exact ih s s2 h2 c

theorem step_next_inv {g : Grid} {rows cols : ℕ} {start goal : Cell} {s s1 : DState}
    (hacc : GridAcc g rows cols)
    (hinv : Inv g rows cols start goal s)
    (hstep : dijkstraStep g rows cols start goal s = .next s1) :
    Inv g rows cols start goal s1 := by
  cases hpop : popMin s.queue with
  | none => simp [dijkstraStep, hpop] at hstep
  | some md =>
    obtain ⟨⟨d, cur⟩, q1⟩ := md
    by_cases hstale : (d : ℕ∞) > s.dist cur
    · have h2 : dijkstraStep g rows cols start goal s = .next { s with queue := q1 } := by
        simp [dijkstraStep, hpop, hstale]
      rw [h2] at hstep
      simp only [StepOut.next.injEq] at hstep
      rw [← hstep]
      exact inv_stale hinv hpop hstale
    · by_cases hgoal : cur = goal
      · cases hrec : reconstructLoop start s.prev (d + 1) cur [] with
        | none =>
          rw [hgoal] at hrec hstale
          simp [dijkstraStep, hpop, hstale, hgoal, hrec] at hstep
        | some p =>
          rw [hgoal] at hrec hstale
          simp [dijkstraStep, hpop, hstale, hgoal, hrec] at hstep
      · cases hrel : relaxList g rows cols (d + 1) cur { s with queue := q1 }
            (neighborsOf cur) with
        | none => simp [dijkstraStep, hpop, hstale, hgoal, hrel] at hstep
        | some s2 =>
          have h2 : dijkstraStep g rows cols start goal s = .next s2 := by
            simp [dijkstraStep, hpop, hstale, hgoal, hrel]
          rw [h2] at hstep
          simp only [StepOut.next.injEq] at hstep
          rw [← hstep]
          exact inv_expand hacc hinv hpop hstale hgoal hrel

theorem step_next_dist_mono {g : Grid} {rows cols : ℕ} {start goal : Cell}
    {s s1 : DState}
    (hstep : dijkstraStep g rows cols start goal s = .next s1) :
    ∀ c, s1.dist c ≤ s.dist c := by
  cases hpop : popMin s.queue with
  | none => simp [dijkstraStep, hpop] at hstep
  | some md =>
    obtain ⟨⟨d, cur⟩, q1⟩ := md
    by_cases hstale : (d : ℕ∞) > s.dist cur
    · have h2 : dijkstraStep g rows cols start goal s = .next { s with queue := q1 } := by
        simp [dijkstraStep, hpop, hstale]
      rw [h2] at hstep
      simp only [StepOut.next.injEq] at hstep
      rw [← hstep]
      exact fun c => le_refl _
    · by_cases hgoal : cur = goal
      · cases hrec : reconstructLoop start s.prev (d + 1) cur [] with
        | none =>
          rw [hgoal] at hrec hstale
          simp [dijkstraStep, hpop, hstale, hgoal, hrec] at hstep
        | some p =>
          rw [hgoal] at hrec hstale
          simp [dijkstraStep, hpop, hstale, hgoal, hrec] at hstep
      · cases hrel : relaxList g rows cols (d + 1) cur { s with queue := q1 }
            (neighborsOf cur) with
        | none => simp [dijkstraStep, hpop, hstale, hgoal, hrel] at hstep
        | some s2 =>
          have h2 : dijkstraStep g rows cols start goal s = .next s2 := by
            simp [dijkstraStep, hpop, hstale, hgoal, hrel]
          rw [h2] at hstep
          simp only [StepOut.next.injEq] at hstep
          rw [← hstep]
          exact relaxList_dist_mono g rows cols (d + 1) cur (neighborsOf cur)
            { s with queue := q1 } s2 hrel

theorem reaches_inv {g : Grid} {rows cols : ℕ} {start goal : Cell}
    (hacc : GridAcc g rows cols) :
    ∀ {s : DState}, Reaches g rows cols start goal s → Inv g rows cols start goal s := by
  intro s hr
  induction hr with
  | init => exact inv_init g rows cols start goal
  | step _ hstep ih => exact step_next_inv hacc ih hstep

theorem dijkstra_main {g : Grid} (hrect : Rect g) (hne : g ≠ [])
    (start goal : Cell) :
    (dijkstra g start goal ≠ .exn ∧ dijkstra g start goal ≠ .fuelOut) ∧
    (∀ p, dijkstra g start goal = .path p →
      p.head? = some start ∧ p.getLast? = some goal ∧ List.Chain' Adj p ∧
      (∀ x ∈ p, x = start ∨ Trav g x) ∧
      ∀ n : ℕ, NWalk g g.length (colsOf g) start goal n → p.length ≤ n + 1) ∧
    (dijkstra g start goal = .noPath →
      ∀ n : ℕ, ¬ NWalk g g.length (colsOf g) start goal n) := by
  obtain ⟨g0, gs, rfl⟩ : ∃ g0 gs, g = g0 :: gs := by
    cases g with
    | nil => exact absurd rfl hne
    | cons a l => exact ⟨a, l, rfl⟩
  have hacc := rect_gridAcc hrect
  have hfl0 : ∀ e ∈ (initState start).queue, 0 ≤ e.1 := fun e _ => Nat.zero_le _
  have hcnt : (initState start).queue.length +
      (pushSet (g0 :: gs) (g0 :: gs).length (colsOf (g0 :: gs)) 0
        (initState start).dist).card <
      (g0 :: gs).length * colsOf (g0 :: gs) + 2 := by
    have h1 := pushSet_card_le (g0 :: gs) (g0 :: gs).length (colsOf (g0 :: gs)) 0
      (initState start).dist
    have hql : (initState start).queue.length = 1 := rfl
    rw [hql]
    omega
  have hmain := loop_main (g0 :: gs) (g0 :: gs).length (colsOf (g0 :: gs)) start goal
    hacc ((g0 :: gs).length * colsOf (g0 :: gs) + 2) 0 (initState start)
    (inv_init _ _ _ _ _) hfl0 hcnt
  exact hmain


theorem adj_manhattan {s c c2 : Cell} (h : Adj c c2) :
    manhattan s c2 ≤ manhattan s c + 1 := by
  simp only [Adj, neighborsOf, List.mem_cons, List.mem_singleton,
    List.not_mem_nil, or_false] at h
  rcases h with h | h | h | h <;> subst h <;> simp only [manhattan] <;> omega

theorem nwalk_manhattan_le {g : Grid} {rows cols : ℕ} {s : Cell} :
    ∀ {c : Cell} {n : ℕ}, NWalk g rows cols s c n → manhattan s c ≤ n := by
  intro c n h
  induction h with
  | nil => simp [manhattan]
  | @cons c k c2 hw hadj hok ih =>
    have h2 := adj_manhattan (s := s) hadj
    omega

theorem manhattan_walk (g : Grid) (rows cols : ℕ)
    (htrav : ∀ x : Cell, inB rows cols x → gridGet g x.1 x.2 = some 0)
    (s : Cell) (hs : inB rows cols s) :
    ∀ (k : ℕ) (t : Cell), inB rows cols t → manhattan s t = k →
      NWalk g rows cols s t k := by
  intro k
  induction k with
  | zero =>
    intro t _ hm
    have hst : s = t := by
      simp only [manhattan] at hm
      have h1 : s.1 = t.1 ∧ s.2 = t.2 := by omega
      exact Prod.ext h1.1 h1.2
    rw [← hst]
    exact NWalk.nil
  | succ k ih =>
    intro t ht hm
    obtain ⟨hs1, hs2, hs3, hs4⟩ := hs
    obtain ⟨ht1, ht2, ht3, ht4⟩ := ht
    by_cases h1 : s.1 < t.1
    · have ht2b : inB rows cols (t.1 - 1, t.2) := ⟨by omega, by omega, ht3, ht4⟩
      have hadj : Adj (t.1 - 1, t.2) t := by
        simp only [Adj, neighborsOf, List.mem_cons, List.mem_singleton,
          List.not_mem_nil, or_false]
        exact Or.inr (Or.inl (Prod.ext (by omega) rfl))
      have hm2 : manhattan s (t.1 - 1, t.2) = k := by
        simp only [manhattan] at hm ⊢
        omega
      exact NWalk.cons (ih (t.1 - 1, t.2) ht2b hm2) hadj ⟨⟨ht1, ht2, ht3, ht4⟩, htrav t ⟨ht1, ht2, ht3, ht4⟩⟩
    · by_cases h2 : t.1 < s.1
      · have ht2b : inB rows cols (t.1 + 1, t.2) := ⟨by omega, by omega, ht3, ht4⟩
        have hadj : Adj (t.1 + 1, t.2) t := by
          simp only [Adj, neighborsOf, List.mem_cons, List.mem_singleton,
            List.not_mem_nil, or_false]
          exact Or.inl (Prod.ext (by omega) rfl)
        have hm2 : manhattan s (t.1 + 1, t.2) = k := by
          simp only [manhattan] at hm ⊢
          omega
        exact NWalk.cons (ih (t.1 + 1, t.2) ht2b hm2) hadj ⟨⟨ht1, ht2, ht3, ht4⟩, htrav t ⟨ht1, ht2, ht3, ht4⟩⟩
      · by_cases h3 : s.2 < t.2
        · have ht2b : inB rows cols (t.1, t.2 - 1) := ⟨ht1, ht2, by omega, by omega⟩
          have hadj : Adj (t.1, t.2 - 1) t := by
            simp only [Adj, neighborsOf, List.mem_cons, List.mem_singleton,
              List.not_mem_nil, or_false]
            exact Or.inr (Or.inr (Or.inr (Prod.ext rfl (by omega))))
          have hm2 : manhattan s (t.1, t.2 - 1) = k := by
            simp only [manhattan] at hm ⊢
            omega
          exact NWalk.cons (ih (t.1, t.2 - 1) ht2b hm2) hadj ⟨⟨ht1, ht2, ht3, ht4⟩, htrav t ⟨ht1, ht2, ht3, ht4⟩⟩
        · have h4 : t.2 < s.2 := by
            simp only [manhattan] at hm
            omega
          have ht2b : inB rows cols (t.1, t.2 + 1) := ⟨ht1, ht2, by omega, by omega⟩
          have hadj : Adj (t.1, t.2 + 1) t := by
            simp only [Adj, neighborsOf, List.mem_cons, List.mem_singleton,
              List.not_mem_nil, or_false]
            exact Or.inr (Or.inr (Or.inl (Prod.ext rfl (by omega))))
          have hm2 : manhattan s (t.1, t.2 + 1) = k := by
            simp only [manhattan] at hm ⊢
            omega
          exact NWalk.cons (ih (t.1, t.2 + 1) ht2b hm2) hadj ⟨⟨ht1, ht2, ht3, ht4⟩, htrav t ⟨ht1, ht2, ht3, ht4⟩⟩

theorem blockCell_length (g : Grid) (ch : Cell) :
    (blockCell g ch).length = g.length := by
  simp [blockCell]

theorem blockCell_colsOf (g : Grid) (ch : Cell) :
    colsOf (blockCell g ch) = colsOf g := by
  cases g with
  | nil => rfl
  | cons g0 gs =>
    unfold blockCell
    rw [List.mapIdx_cons]
    simp only [colsOf, List.headI]
    split <;> simp

theorem blockCell_rect {g : Grid} (h : Rect g) (ch : Cell) :
    Rect (blockCell g ch) := by
  intro row hrow
  rw [blockCell_colsOf]
  rw [List.mem_iff_getElem] at hrow
  obtain ⟨i, hi, hrowi⟩ := hrow
  have hig : i < g.length := by
    have := blockCell_length g ch
    omega
  have hgi : (blockCell g ch)[i] = if (i : Int) = ch.1 then
      (g[i].mapIdx (fun c v => if (c : Int) = ch.2 then 1 else v)) else g[i] := by
    simp [blockCell, List.getElem_mapIdx]
  have hmem : g[i] ∈ g := List.getElem_mem hig
  rw [← hrowi, hgi]
  split
  · simp [h g[i] hmem]
  · exact h g[i] hmem

theorem blockCell_get_ne (g : Grid) (ch : Cell) {r c : Int}
    (hne : (r, c) ≠ ch) (hr : 0 ≤ r) (hc : 0 ≤ c) :
    gridGet (blockCell g ch) r c = gridGet g r c := by
  unfold gridGet blockCell
  rw [List.getElem?_mapIdx]
  cases hrow : g[r.toNat]? with
  | none => simp
  | some row =>
    simp only [Option.map_some', Option.some_bind]
    by_cases hch1 : (r.toNat : Int) = ch.1
    · rw [if_pos hch1]
      rw [List.getElem?_mapIdx]
      cases hcel : row[c.toNat]? with
      | none => simp
      | some v =>
        simp only [Option.map_some']
        have hch2 : (c.toNat : Int) ≠ ch.2 := by
          intro h2
          apply hne
          have hr2 : (r.toNat : Int) = r := Int.toNat_of_nonneg hr
          have hc2 : (c.toNat : Int) = c := Int.toNat_of_nonneg hc
          rw [← hr2, ← hc2, hch1, h2]
        rw [if_neg hch2]
    · rw [if_neg hch1]

theorem blockCell_get_self (g : Grid) (ch : Cell)
    (hch : Trav g ch) :
    gridGet (blockCell g ch) ch.1 ch.2 = some 1 := by
  obtain ⟨⟨h1, h2, h3, h4⟩, hv⟩ := hch
  unfold gridGet at hv ⊢
  unfold blockCell
  rw [List.getElem?_mapIdx]
  cases hrow : g[ch.1.toNat]? with
  | none => rw [hrow] at hv; simp at hv
  | some row =>
    simp only [Option.map_some', Option.some_bind]
    rw [if_pos (Int.toNat_of_nonneg h1)]
    rw [List.getElem?_mapIdx]
    rw [hrow] at hv
    simp only [Option.some_bind] at hv
    cases hcel : row[ch.2.toNat]? with
    | none => rw [hcel] at hv; simp at hv
    | some v =>
      simp only [Option.map_some']
      rw [if_pos (Int.toNat_of_nonneg h3)]

theorem blockCell_trav {g : Grid} {ch : Cell} (hch : Trav g ch) {x : Cell}
    (hx : Trav (blockCell g ch) x) : Trav g x := by
  obtain ⟨⟨h1, h2, h3, h4⟩, hv⟩ := hx
  rw [blockCell_length] at h2
  rw [blockCell_colsOf] at h4
  by_cases hxc : x = ch
  · subst hxc
    rw [blockCell_get_self g x hch] at hv
    simp at hv
  · have hne : (x.1, x.2) ≠ ch := by
      intro h
      exact hxc (by rw [← h])
    rw [blockCell_get_ne g ch hne h1 h3] at hv
    exact ⟨⟨h1, h2, h3, h4⟩, hv⟩


theorem relaxList_queue_congr (g : Grid) (rows cols nd : ℕ) (cur : Cell) :
    ∀ (nbs : List Cell) (dist : Cell → ℕ∞) (prev : Cell → Option Cell)
      (q1 q2 : List Entry),
      (relaxList g rows cols nd cur ⟨dist, prev, q1⟩ nbs = none ∧
       relaxList g rows cols nd cur ⟨dist, prev, q2⟩ nbs = none) ∨
      (∃ dist2 prev2 push,
        relaxList g rows cols nd cur ⟨dist, prev, q1⟩ nbs = some ⟨dist2, prev2, q1 ++ push⟩ ∧
        relaxList g rows cols nd cur ⟨dist, prev, q2⟩ nbs = some ⟨dist2, prev2, q2 ++ push⟩) := by
  intro nbs
  induction nbs with
  | nil =>
    intro dist prev q1 q2
    exact Or.inr ⟨dist, prev, [], by simp [relaxList], by simp [relaxList]⟩
  | cons nb rest ih =>
    intro dist prev q1 q2
    by_cases hb : inB rows cols nb
    · cases hget : gridGet g nb.1 nb.2 with
      | none =>
        left
        constructor <;> simp [relaxList, relaxCell, hb, hget]
      | some v =>
        by_cases hv : v = 0
        · subst hv
          by_cases hlt : (nd : ℕ∞) < dist nb
          · have h1 : ∀ q : List Entry, relaxList g rows cols nd cur ⟨dist, prev, q⟩ (nb :: rest) =
                relaxList g rows cols nd cur
                  ⟨fun x => if x = nb then (nd : ℕ∞) else dist x,
                   fun x => if x = nb then some cur else prev x,
                   q ++ [(nd, nb)]⟩ rest := by
              intro q
              simp [relaxList, relaxCell, hb, hget, hlt]
            rcases ih (fun x => if x = nb then (nd : ℕ∞) else dist x)
                (fun x => if x = nb then some cur else prev x)
                (q1 ++ [(nd, nb)]) (q2 ++ [(nd, nb)]) with ⟨hn1, hn2⟩ | ⟨d2, p2, push, he1, he2⟩
            · left
              rw [h1 q1, h1 q2]
              exact ⟨hn1, hn2⟩
            · right
              refine ⟨d2, p2, (nd, nb) :: push, ?_, ?_⟩
              · rw [h1 q1, he1]
                simp
              · rw [h1 q2, he2]
                simp
          · have h1 : ∀ q : List Entry, relaxList g rows cols nd cur ⟨dist, prev, q⟩ (nb :: rest) =
                relaxList g rows cols nd cur ⟨dist, prev, q⟩ rest := by
              intro q
              simp [relaxList, relaxCell, hb, hget, hlt]
            rw [h1 q1, h1 q2]
            exact ih dist prev q1 q2
        · have h1 : ∀ q : List Entry, relaxList g rows cols nd cur ⟨dist, prev, q⟩ (nb :: rest) =
              relaxList g rows cols nd cur ⟨dist, prev, q⟩ rest := by
            intro q
            simp [relaxList, relaxCell, hb, hget, hv]
          rw [h1 q1, h1 q2]
          exact ih dist prev q1 q2
    · have h1 : ∀ q : List Entry, relaxList g rows cols nd cur ⟨dist, prev, q⟩ (nb :: rest) =
          relaxList g rows cols nd cur ⟨dist, prev, q⟩ rest := by
        intro q
        simp [relaxList, relaxCell, hb]
      rw [h1 q1, h1 q2]
      exact ih dist prev q1 q2

theorem dijkstraLoop_queue_perm (g : Grid) (rows cols : ℕ) (start goal : Cell) :
    ∀ (fuel : ℕ) (dist : Cell → ℕ∞) (prev : Cell → Option Cell)
      (q1 q2 : List Entry), q1.Perm q2 →
      dijkstraLoop g rows cols start goal fuel ⟨dist, prev, q1⟩ =
      dijkstraLoop g rows cols start goal fuel ⟨dist, prev, q2⟩ := by
  intro fuel
  induction fuel with
  | zero => intro dist prev q1 q2 _; rfl
  | succ fuel ih =>
    intro dist prev q1 q2 hp
    cases hpop : popMin q1 with
    | none =>
      have h1 : q1 = [] := popMin_none.mp hpop
      have h2 : q2 = [] := (h1 ▸ hp).symm.eq_nil
      subst h1
      subst h2
      rfl
    | some md =>
      obtain ⟨⟨d, cur⟩, r1⟩ := md
      obtain ⟨hpop2, hperm⟩ := popMin_perm hp hpop
      by_cases hstale : (d : ℕ∞) > dist cur
      · have e1 : dijkstraLoop g rows cols start goal (fuel + 1) ⟨dist, prev, q1⟩ =
            dijkstraLoop g rows cols start goal fuel ⟨dist, prev, r1⟩ := by
          simp [dijkstraLoop, dijkstraStep, hpop, hstale]
        have e2 : dijkstraLoop g rows cols start goal (fuel + 1) ⟨dist, prev, q2⟩ =
            dijkstraLoop g rows cols start goal fuel ⟨dist, prev, q2.erase (d, cur)⟩ := by
          simp [dijkstraLoop, dijkstraStep, hpop2, hstale]
        rw [e1, e2]
        exact ih dist prev r1 (q2.erase (d, cur)) hperm
      · by_cases hgoal : cur = goal
        · subst hgoal
          cases hrec : reconstructLoop start prev (d + 1) cur [] with
          | some p =>
            have e1 : dijkstraLoop g rows cols start cur (fuel + 1) ⟨dist, prev, q1⟩ =
                .path p := by
              simp [dijkstraLoop, dijkstraStep, hpop, hstale, hrec]
            have e2 : dijkstraLoop g rows cols start cur (fuel + 1) ⟨dist, prev, q2⟩ =
                .path p := by
              simp [dijkstraLoop, dijkstraStep, hpop2, hstale, hrec]
            rw [e1, e2]
          | none =>
            have e1 : dijkstraLoop g rows cols start cur (fuel + 1) ⟨dist, prev, q1⟩ =
                .fuelOut := by
              simp [dijkstraLoop, dijkstraStep, hpop, hstale, hrec]
            have e2 : dijkstraLoop g rows cols start cur (fuel + 1) ⟨dist, prev, q2⟩ =
                .fuelOut := by
              simp [dijkstraLoop, dijkstraStep, hpop2, hstale, hrec]
            rw [e1, e2]
        · rcases relaxList_queue_congr g rows cols (d + 1) cur (neighborsOf cur)
              dist prev r1 (q2.erase (d, cur)) with ⟨hn1, hn2⟩ | ⟨d2, p2, push, he1, he2⟩
          · have e1 : dijkstraLoop g rows cols start goal (fuel + 1) ⟨dist, prev, q1⟩ =
                .exn := by
              simp [dijkstraLoop, dijkstraStep, hpop, hstale, hgoal, hn1]
            have e2 : dijkstraLoop g rows cols start goal (fuel + 1) ⟨dist, prev, q2⟩ =
                .exn := by
              simp [dijkstraLoop, dijkstraStep, hpop2, hstale, hgoal, hn2]
            rw [e1, e2]
          · have e1 : dijkstraLoop g rows cols start goal (fuel + 1) ⟨dist, prev, q1⟩ =
                dijkstraLoop g rows cols start goal fuel ⟨d2, p2, r1 ++ push⟩ := by
              simp [dijkstraLoop, dijkstraStep, hpop, hstale, hgoal, he1]
            have e2 : dijkstraLoop g rows cols start goal (fuel + 1) ⟨dist, prev, q2⟩ =
                dijkstraLoop g rows cols start goal fuel
                  ⟨d2, p2, (q2.erase (d, cur)) ++ push⟩ := by
              simp [dijkstraLoop, dijkstraStep, hpop2, hstale, hgoal, he2]
            rw [e1, e2]
            exact ih d2 p2 _ _ (hperm.append_right push)


/-- C1: for every non-empty rectangular grid and in-bounds traversable start
and goal, a returned path runs from start to goal inclusive, consecutive
cells are 4-directionally adjacent, every cell on it is traversable, and its
length in hops (equivalently, in cells, as all such paths are non-empty) is
minimal over all such paths. -/
theorem dijkstra_returns_shortest_path
    (g : Grid) (start goal : Cell) (p : List Cell)
    (hrect : Rect g) (hne : g ≠ []) (hs : Trav g start) (hg : Trav g goal)
    (hp : dijkstra g start goal = .path p) :
    PathOk g start goal p ∧ ∀ q, PathOk g start goal q → p.length ≤ q.length := by
  obtain ⟨_, hpath, _⟩ := dijkstra_main hrect hne start goal
  obtain ⟨hh, hl, hc, hcells, hmin⟩ := hpath p hp
  constructor
  · exact ⟨hh, hl, hc, fun x hx => (hcells x hx).elim (fun he => he ▸ hs) id⟩
  · intro q hq
    obtain ⟨qh, ql, qc, qcells⟩ := hq
    have hw := chain_to_nwalk g g.length (colsOf g) start q goal qh ql qc qcells
    have hb := hmin (q.length - 1) hw
    have hq1 : 1 ≤ q.length := by
      cases q with
      | nil => simp at qh
      | cons a l => simp
    omega

theorem dijkstra_returns_shortest_path_witness :
    PathOk [[0,0],[0,0]] (0,0) (1,1) [(0,0),(0,1),(1,1)] ∧
    ∀ q, PathOk [[0,0],[0,0]] (0,0) (1,1) q →
      ([(0,0),(0,1),(1,1)] : List Cell).length ≤ q.length :=
  dijkstra_returns_shortest_path [[0,0],[0,0]] (0,0) (1,1) [(0,0),(0,1),(1,1)]
    (by decide) (by decide) (by decide) (by decide) (by decide)

/-- C2: on a non-empty rectangular grid with in-bounds traversable start and
goal, the search terminates and returns either a path or the no-path value;
no exception is raised and no fuel bound is hit (every dictionary lookup and
grid access performed is defined). -/
theorem dijkstra_terminates_without_error
    (g : Grid) (start goal : Cell)
    (hrect : Rect g) (hne : g ≠ []) (hs : Trav g start) (hg : Trav g goal) :
    (∃ p, dijkstra g start goal = .path p) ∨ dijkstra g start goal = .noPath := by
  obtain ⟨⟨hex, hfo⟩, _, _⟩ := dijkstra_main hrect hne start goal
  cases hres : dijkstra g start goal with
  | path p => exact Or.inl ⟨p, rfl⟩
  | noPath => exact Or.inr rfl
  | exn => exact absurd hres hex
  | fuelOut => exact absurd hres hfo

theorem dijkstra_terminates_without_error_witness :
    (∃ p, dijkstra [[0]] (0,0) (0,0) = .path p) ∨
      dijkstra [[0]] (0,0) (0,0) = .noPath :=
  dijkstra_terminates_without_error [[0]] (0,0) (0,0)
    (by decide) (by decide) (by decide) (by decide)

/-- C3: on a non-empty rectangular grid with no blocked cells, for any
in-bounds start and goal the search returns a path whose hop count (cells
minus one) is the Manhattan distance between start and goal. -/
theorem dijkstra_open_grid_manhattan
    (g : Grid) (start goal : Cell)
    (hrect : Rect g) (hne : g ≠ [])
    (hopen : ∀ x : Cell, inB g.length (colsOf g) x → gridGet g x.1 x.2 = some 0)
    (hs : inB g.length (colsOf g) start) (hg : inB g.length (colsOf g) goal) :
    ∃ p, dijkstra g start goal = .path p ∧ p.length = manhattan start goal + 1 := by
  have hwalk := manhattan_walk g g.length (colsOf g) hopen start hs
    (manhattan start goal) goal hg rfl
  obtain ⟨⟨hex, hfo⟩, hpath, hnp⟩ := dijkstra_main hrect hne start goal
  cases hres : dijkstra g start goal with
  | noPath => exact absurd hwalk (hnp hres _)
  | exn => exact absurd hres hex
  | fuelOut => exact absurd hres hfo
  | path p =>
    refine ⟨p, rfl, ?_⟩
    obtain ⟨hh, hl, hc, hcells, hmin⟩ := hpath p hres
    have hub : p.length ≤ manhattan start goal + 1 := hmin _ hwalk
    have hcells2 : ∀ x ∈ p, OkCell g g.length (colsOf g) x := by
      intro x hx
      rcases hcells x hx with rfl | h
      · exact ⟨hs, hopen _ hs⟩
      · exact h
    have hw2 := chain_to_nwalk g g.length (colsOf g) start p goal hh hl hc hcells2
    have hlb := nwalk_manhattan_le hw2
    have hp1 : 1 ≤ p.length := by
      cases p with
      | nil => simp at hh
      | cons a l => simp
    omega

theorem dijkstra_open_grid_manhattan_witness :
    ∃ p, dijkstra [[0,0],[0,0]] (0,0) (1,1) = .path p ∧
      p.length = manhattan (0,0) (1,1) + 1 :=
  dijkstra_open_grid_manhattan [[0,0],[0,0]] (0,0) (1,1)
    (by decide) (by decide)
    (by
      rintro ⟨a, b⟩ ⟨h1, h2, h3, h4⟩
      simp only [List.length_cons, List.length_nil, colsOf, List.headI] at h2 h4
      have ha : a = 0 ∨ a = 1 := by omega
      have hb : b = 0 ∨ b = 1 := by omega
      rcases ha with rfl | rfl <;> rcases hb with rfl | rfl <;> decide)
    (by decide) (by decide)

/-- C4: blocking one traversable cell never shortens the returned path: if the
search returns a path on both the original grid and the grid with that cell
blocked, the path on the blocked grid is at least as long. -/
theorem dijkstra_obstacle_monotone
    (g : Grid) (ch start goal : Cell) (p p2 : List Cell)
    (hrect : Rect g) (hne : g ≠ []) (hch : Trav g ch)
    (hs : Trav (blockCell g ch) start) (hg : Trav (blockCell g ch) goal)
    (hp : dijkstra g start goal = .path p)
    (hp2 : dijkstra (blockCell g ch) start goal = .path p2) :
    p.length ≤ p2.length := by
  have hrect2 : Rect (blockCell g ch) := blockCell_rect hrect ch
  have hne2 : blockCell g ch ≠ [] := by
    intro h
    apply hne
    have h2 := blockCell_length g ch
    rw [h] at h2
    exact List.length_eq_zero.mp h2.symm
  obtain ⟨_, hpath1, _⟩ := dijkstra_main hrect hne start goal
  obtain ⟨_, hpath2, _⟩ := dijkstra_main hrect2 hne2 start goal
  obtain ⟨_, _, _, _, hmin1⟩ := hpath1 p hp
  obtain ⟨hh2, hl2, hc2, hcells2, _⟩ := hpath2 p2 hp2
  have hsg : Trav g start := blockCell_trav hch hs
  have hcellsg : ∀ x ∈ p2, OkCell g g.length (colsOf g) x := by
    intro x hx
    rcases hcells2 x hx with rfl | h
    · exact hsg
    · exact blockCell_trav hch h
  have hw : NWalk g g.length (colsOf g) start goal (p2.length - 1) :=
    chain_to_nwalk g g.length (colsOf g) start p2 goal hh2 hl2 hc2 hcellsg
  have hbound := hmin1 _ hw
  have hp2pos : 1 ≤ p2.length := by
    cases p2 with
    | nil => simp at hh2
    | cons a l => simp
  omega

theorem dijkstra_obstacle_monotone_witness :
    ([(0,0),(0,1),(1,1)] : List Cell).length ≤
      ([(0,0),(0,1),(1,1)] : List Cell).length :=
  dijkstra_obstacle_monotone [[0,0],[0,0]] (1,0) (0,0) (1,1)
    [(0,0),(0,1),(1,1)] [(0,0),(0,1),(1,1)]
    (by decide) (by decide) (by decide) (by decide) (by decide)
    (by decide) (by decide)

/-- C5: with start equal to goal on a non-empty grid, the search returns the
single-cell path containing only the start. -/
theorem dijkstra_start_eq_goal
    (g : Grid) (s : Cell)
    (hrect : Rect g) (hne : g ≠ []) (hs : Trav g s) :
    dijkstra g s s = .path [s] := by
  obtain ⟨g0, gs, rfl⟩ : ∃ g0 gs, g = g0 :: gs := by
    cases g with
    | nil => exact absurd rfl hne
    | cons a l => exact ⟨a, l, rfl⟩
  show dijkstraLoop (g0 :: gs) (g0 :: gs).length g0.length s s
      (((g0 :: gs).length * g0.length + 1) + 1) (initState s) = .path [s]
  simp [dijkstraLoop, dijkstraStep, popMin, findMinE, initState, reconstructLoop]

theorem dijkstra_start_eq_goal_witness :
    dijkstra [[0,0],[0,0]] (1,1) (1,1) = .path [(1,1)] :=
  dijkstra_start_eq_goal [[0,0],[0,0]] (1,1) (by decide) (by decide) (by decide)

/-- C6: if no path of traversable 4-adjacent cells joins start to goal on a
non-empty rectangular grid with in-bounds traversable start and goal, the
search returns the no-path value rather than raising. -/
theorem dijkstra_unreachable_noPath
    (g : Grid) (start goal : Cell)
    (hrect : Rect g) (hne : g ≠ []) (hs : Trav g start) (hg : Trav g goal)
    (hnopath : ¬ ∃ q, PathOk g start goal q) :
    dijkstra g start goal = .noPath := by
  obtain ⟨⟨hex, hfo⟩, hpath, _⟩ := dijkstra_main hrect hne start goal
  cases hres : dijkstra g start goal with
  | noPath => rfl
  | exn => exact absurd hres hex
  | fuelOut => exact absurd hres hfo
  | path p =>
    exfalso
    obtain ⟨hh, hl, hc, hcells, _⟩ := hpath p hres
    exact hnopath ⟨p, hh, hl, hc,
      fun x hx => (hcells x hx).elim (fun he => he ▸ hs) id⟩

theorem dijkstra_unreachable_noPath_witness :
    dijkstra [[0,1,0]] (0,0) (0,2) = .noPath := by
  apply dijkstra_unreachable_noPath [[0,1,0]] (0,0) (0,2)
    (by decide) (by decide) (by decide) (by decide)
  rintro ⟨q, hh, hl, hc, hcells⟩
  have hnw := (dijkstra_main (g := [[0,1,0]]) (by decide) (by decide)
    (0,0) (0,2)).2.2 (by decide)
  exact hnw (q.length - 1)
    (chain_to_nwalk [[0,1,0]] ([[0,1,0]] : Grid).length (colsOf [[0,1,0]])
      (0,0) q (0,2) hh hl hc hcells)

/-- C7: in every state the main loop reaches on a well-formed grid with
in-bounds traversable start, each distance entry is either the infinite
sentinel or the hop length of an actual path of traversable cells from the
start, and no distance entry increases across a loop iteration. -/
theorem dijkstra_dist_invariant
    (g : Grid) (start goal : Cell)
    (hrect : Rect g) (hne : g ≠ []) (hs : Trav g start) :
    ∀ s, Reaches g g.length (colsOf g) start goal s →
      (∀ c : Cell, s.dist c = ⊤ ∨
        ∃ (n : ℕ) (p : List Cell), s.dist c = (n : ℕ∞) ∧
          p.head? = some start ∧ p.getLast? = some c ∧ List.Chain' Adj p ∧
          (∀ x ∈ p, Trav g x) ∧ p.length = n + 1) ∧
      (∀ s1, dijkstraStep g g.length (colsOf g) start goal s = .next s1 →
        ∀ c, s1.dist c ≤ s.dist c) := by
  intro s hr
  have hinv := reaches_inv (rect_gridAcc hrect) hr
  constructor
  · intro c
    by_cases htop : s.dist c = ⊤
    · exact Or.inl htop
    · obtain ⟨n, hn⟩ := enat_exists_coe htop
      obtain ⟨p, hp1, hp2, hp3, hp4, hp5⟩ := nwalk_to_list hs (hinv.sound c n hn)
      exact Or.inr ⟨n, p, hn, hp1, hp2, hp3, hp4, hp5⟩
  · intro s1 hstep
    exact step_next_dist_mono hstep

theorem dijkstra_dist_invariant_witness :
    (∀ c : Cell, (initState (0,0)).dist c = ⊤ ∨
      ∃ (n : ℕ) (p : List Cell), (initState (0,0)).dist c = (n : ℕ∞) ∧
        p.head? = some ((0,0) : Cell) ∧ p.getLast? = some c ∧ List.Chain' Adj p ∧
        (∀ x ∈ p, Trav [[0]] x) ∧ p.length = n + 1) ∧
    (∀ s1, dijkstraStep [[0]] ([[0]] : Grid).length (colsOf [[0]]) (0,0) (0,0)
        (initState (0,0)) = .next s1 →
      ∀ c, s1.dist c ≤ (initState (0,0)).dist c) :=
  dijkstra_dist_invariant [[0]] (0,0) (0,0) (by decide) (by decide) (by decide)
    (initState (0,0)) Reaches.init

/-- C8 counterexample: called with an in-bounds blocked goal, the code does
not reject the input with a validation error; it silently runs the search to
completion and returns the ordinary no-path value. -/
theorem dijkstra_validation_counterexample :
    dijkstra [[0,1]] (0,0) (0,1) = .noPath := by decide

/-- C8 amended: the code performs no input validation.  An empty grid raises
an unhandled exception at the initial dimension read; a blocked goal is
silently searched and yields the no-path value; a blocked start is silently
searched and can yield a path. -/
theorem dijkstra_no_validation :
    (∀ s e : Cell, dijkstra [] s e = .exn) ∧
    dijkstra [[0,1]] (0,0) (0,1) = .noPath ∧
    dijkstra [[1,0]] (0,0) (0,1) = .path [(0,0),(0,1)] :=
  ⟨fun _ _ => rfl, by decide, by decide⟩

/-- C9: the traversability of the start cell is never checked: with a blocked
in-bounds start adjacent to a traversable corridor leading to the goal the
search returns a path whose first cell is the blocked start, and with a
blocked start equal to the goal it returns that single blocked cell. -/
theorem dijkstra_blocked_start_path :
    ¬ Trav [[1,0,0]] (0,0) ∧
    dijkstra [[1,0,0]] (0,0) (0,2) = .path [(0,0),(0,1),(0,2)] ∧
    ¬ Trav [[1]] (0,0) ∧
    dijkstra [[1]] (0,0) (0,0) = .path [(0,0)] := by decide

/-- C10: the search is deterministic: the embedding is a function of the
grid, start, and goal alone, and the loop result is invariant under any
rearrangement of the frontier list, because entries are totally ordered by
the lexicographic comparison of `(distance, cell)` so the popped minimum is
the same for every arrangement. -/
theorem dijkstra_deterministic :
    (∀ (g : Grid) (start goal : Cell),
      dijkstra g start goal = dijkstra g start goal) ∧
    (∀ (g : Grid) (rows cols : ℕ) (start goal : Cell) (fuel : ℕ)
        (dist : Cell → ℕ∞) (prev : Cell → Option Cell) (q1 q2 : List Entry),
      q1.Perm q2 →
      dijkstraLoop g rows cols start goal fuel ⟨dist, prev, q1⟩ =
      dijkstraLoop g rows cols start goal fuel ⟨dist, prev, q2⟩) :=
  ⟨fun _ _ _ => rfl,
   fun g rows cols start goal fuel dist prev q1 q2 hp =>
     dijkstraLoop_queue_perm g rows cols start goal fuel dist prev q1 q2 hp⟩

theorem dijkstra_deterministic_witness :
    dijkstraLoop [[0,0]] 1 2 (0,0) (0,1) 4
        ⟨fun c => if c = (0,0) then 0 else ⊤, fun _ => none, [(2,(0,1)),(0,(0,0))]⟩ =
      dijkstraLoop [[0,0]] 1 2 (0,0) (0,1) 4
        ⟨fun c => if c = (0,0) then 0 else ⊤, fun _ => none, [(0,(0,0)),(2,(0,1))]⟩ :=
  dijkstra_deterministic.2 [[0,0]] 1 2 (0,0) (0,1) 4
    (fun c => if c = (0,0) then 0 else ⊤) (fun _ => none)
    [(2,(0,1)),(0,(0,0))] [(0,(0,0)),(2,(0,1))] (by decide)

end GridPath
